import Mathlib

/-!
A shallow embedding of the core of `src/rebalance.py`: the allocator
`rebalance` (lines 137-197) and the trade applier `apply_trades`
(lines 199-224).

Modelling conventions:
* Python floats (cash, prices, intermediate values) are modelled as exact
  rationals `ℚ`; share quantities (Python `int`) as `ℤ`.
* Python dicts are modelled as association lists over `String` keys with
  the usual first-match lookup; a well-formed dict has `Nodup` keys.
* Python exceptions become `Except` results.  `rebalance` can only fail
  with the `ZeroDivisionError` raised at `target_value = total / N` when
  the price table is empty; the specification names this failure mode
  `EmptyMarket`.  `apply_trades` can fail with the two `ValueError`s of
  lines 210 and 220 (named `InsufficientShares` / `InsufficientCash` by
  the specification) or with a `KeyError` from `prices[t]` when a traded
  ticker has no price.  Because the Python code mutates the caller's
  `stocks` dict in place, a raised error leaves the partially applied
  state visible to the caller; the embedding therefore returns the state
  reached so far alongside the error.
-/

namespace Rebalance

abbrev Ticker := String

/-- Python's string `<` (lexicographic by code point), phrased on the
underlying character list so that it is kernel-computable; `tickLt_iff`
below checks it agrees with `String.lt`. -/
def tickLt (a b : Ticker) : Prop := List.Lex (· < ·) a.data b.data

instance : DecidableRel tickLt := fun a b =>
  inferInstanceAs (Decidable (List.Lex (· < ·) a.data b.data))

/-- Python's string `<=`, the order used by `sorted`. -/
def tickLe (a b : Ticker) : Prop := ¬ tickLt b a

instance : DecidableRel tickLe := fun _ _ => instDecidableNot

theorem tickLt_iff (a b : Ticker) : tickLt a b ↔ a < b := by
  rw [String.lt_iff_toList_lt]; rfl

theorem tickLe_iff (a b : Ticker) : tickLe a b ↔ a ≤ b := by
  rw [String.le_iff_toList_le]
  unfold tickLe tickLt
  constructor
  · intro h; exact not_lt.mp (fun hh => h hh)
  · intro h hh; exact absurd hh (not_lt.mpr h)

instance : IsTrans Ticker tickLe :=
  ⟨fun a b c hab hbc => by
    rw [tickLe_iff] at *; exact le_trans hab hbc⟩

instance : IsTotal Ticker tickLe :=
  ⟨fun a b => by rw [tickLe_iff, tickLe_iff]; exact le_total a b⟩

theorem tickLe_antisymm {a b : Ticker} (hab : tickLe a b) (hba : tickLe b a) :
    a = b := by
  rw [tickLe_iff] at hab hba; exact le_antisymm hab hba

theorem tickLt_iff_le_not_le {a b : Ticker} :
    tickLt a b ↔ tickLe a b ∧ ¬ tickLe b a := by
  rw [tickLt_iff, tickLe_iff, tickLe_iff]; exact lt_iff_le_not_le

/-- A Python dict with `Ticker` keys, as an association list. -/
abbrev Dict (α : Type) := List (Ticker × α)

/-- Python `d.get(t)` / `t in d`: the first binding of `t`, if any. -/
def dget {α : Type} : Dict α → Ticker → Option α
  | [], _ => none
  | (k, v) :: d, t => if k = t then some v else dget d t

/-- Python `d.get(t, v₀)`. -/
def dgetD {α : Type} (d : Dict α) (t : Ticker) (v₀ : α) : α :=
  (dget d t).getD v₀

/-- Python `d[t] = v`: replace the binding of `t`, or append a new one. -/
def dset {α : Type} : Dict α → Ticker → α → Dict α
  | [], t, v => [(t, v)]
  | (k, w) :: d, t, v => if k = t then (t, v) :: d else (k, w) :: dset d t v

/-- Python `del d[t]` (only ever used on a present key): drop the first
binding of `t`. -/
def ddel {α : Type} : Dict α → Ticker → Dict α
  | [], _ => []
  | (k, w) :: d, t => if k = t then d else (k, w) :: ddel d t

/-- Python `d.keys()` in insertion order. -/
def keys {α : Type} (d : Dict α) : List Ticker := d.map Prod.fst

/-! ### The allocator `rebalance` (lines 137-197) -/

/-- Line 147: `all_tickers = sorted(prices.keys())`.  `sorted` is a stable
sort by `<=`, which is what `List.insertionSort` is. -/
def allTickers (prices : Dict ℚ) : List Ticker :=
  List.insertionSort tickLe (keys prices)

/-- `prices[t]`, at call sites where `t` is known to be a key of `prices`
(inside `rebalance` every ticker ranges over `all_tickers`). -/
def priceOf (prices : Dict ℚ) (t : Ticker) : ℚ := dgetD prices t 0

/-- Lines 150-156: `total_stock_value = sum(current_value.values())` with
`current_value[t] = stocks.get(t, 0) * prices[t]`. -/
def stockValue (stocks : Dict ℤ) (prices : Dict ℚ) : ℚ :=
  ((allTickers prices).map fun t => ((dgetD stocks t 0 : ℤ) : ℚ) * priceOf prices t).sum

/-- Line 157: `total_portfolio_value = total_stock_value + cash`. -/
def totalValue (cash : ℚ) (stocks : Dict ℤ) (prices : Dict ℚ) : ℚ :=
  stockValue stocks prices + cash

/-- Line 158: `target_value = total_portfolio_value / N`, as a function of
the price table and the total portfolio value (everything from line 158 on
depends on the inputs only through these two). -/
def targetOf (prices : Dict ℚ) (total : ℚ) : ℚ :=
  total / ((allTickers prices).length : ℚ)

/-- Line 165: `f = target_value / p`. -/
def idealOf (prices : Dict ℚ) (total : ℚ) (t : Ticker) : ℚ :=
  targetOf prices total / priceOf prices t

/-- Line 167: `new_shares[t] = int(math.floor(f))`. -/
def floorSharesOf (prices : Dict ℚ) (total : ℚ) (t : Ticker) : ℤ :=
  ⌊idealOf prices total t⌋

/-- Lines 161-167: the `new_shares` dict as first built, keyed in
`all_tickers` order. -/
def floorShareDict (prices : Dict ℚ) (total : ℚ) : Dict ℤ :=
  (allTickers prices).map fun t => (t, floorSharesOf prices total t)

/-- Line 170: `cost_floor = sum(new_shares[t] * prices[t] for t in all_tickers)`. -/
def costFloor (prices : Dict ℚ) (total : ℚ) : ℚ :=
  ((allTickers prices).map fun t =>
    (floorSharesOf prices total t : ℚ) * priceOf prices t).sum

/-- Lines 174-178: the list of `(ticker, remainder)` pairs, built in
`all_tickers` order and stably sorted by remainder descending
(`remainders.sort(key=lambda x: x[1], reverse=True)`; Python's sort is
stable, and `List.insertionSort` with this relation is the same stable
sort). -/
def rankedOf (prices : Dict ℚ) (total : ℚ) : List (Ticker × ℚ) :=
  List.insertionSort (fun a b => b.2 ≤ a.2)
    ((allTickers prices).map fun t =>
      (t, idealOf prices total t - (floorSharesOf prices total t : ℚ)))

/-- Lines 179-183: the greedy leftover pass.  Walks the ranked list; a
ticker whose price is at most the remaining cash gains one share and its
price is deducted.  Returns the remaining cash and the updated shares. -/
def grantPass (prices : Dict ℚ) : List (Ticker × ℚ) → ℚ → Dict ℤ → ℚ × Dict ℤ
  | [], remaining, shares => (remaining, shares)
  | (t, _) :: rest, remaining, shares =>
    if priceOf prices t ≤ remaining then
      grantPass prices rest (remaining - priceOf prices t)
        (dset shares t (dgetD shares t 0 + 1))
    else
      grantPass prices rest remaining shares

/-- Lines 160-183: the final `new_shares` dict, as a function of the price
table and the total portfolio value. -/
def newSharesOf (prices : Dict ℚ) (total : ℚ) : Dict ℤ :=
  (grantPass prices (rankedOf prices total)
    (total - costFloor prices total) (floorShareDict prices total)).2

/-- The leftover cash remaining after the greedy pass. -/
def leftoverOf (prices : Dict ℚ) (total : ℚ) : ℚ :=
  (grantPass prices (rankedOf prices total)
    (total - costFloor prices total) (floorShareDict prices total)).1

/-- The sole failure of `rebalance`: the `ZeroDivisionError` raised at
line 158 when the price table is empty (`N = 0`); the specification calls
this failure mode `EmptyMarket`. -/
inductive RebalanceError : Type
  | emptyMarket
  deriving DecidableEq

/-- Lines 188-190: `diff = new_shares[t] - stocks.get(t, 0)` for each
ticker, in `all_tickers` order. -/
def diffsOf (cash : ℚ) (stocks : Dict ℤ) (prices : Dict ℚ) : List (Ticker × ℤ) :=
  (allTickers prices).map fun t =>
    (t, dgetD (newSharesOf prices (totalValue cash stocks prices)) t 0 - dgetD stocks t 0)

/-- Lines 186-194: the `sells` list — tickers with `diff < 0`, in
`all_tickers` order, with quantity `-diff`. -/
def sellsOf (cash : ℚ) (stocks : Dict ℤ) (prices : Dict ℚ) : List (Ticker × ℤ) :=
  ((diffsOf cash stocks prices).filter fun x => x.2 < 0).map fun x => (x.1, -x.2)

/-- Lines 186-194: the `buys` list — tickers with `diff > 0`, in
`all_tickers` order. -/
def buysOf (cash : ℚ) (stocks : Dict ℤ) (prices : Dict ℚ) : List (Ticker × ℤ) :=
  (diffsOf cash stocks prices).filter fun x => 0 < x.2

/-- Lines 137-197: `rebalance(cash, stocks, prices)`, returning the pair
`(sells, buys)` built in one pass over `all_tickers` (lines 185-194),
`sells` where `diff < 0` and `buys` where `diff > 0`. -/
def rebalance (cash : ℚ) (stocks : Dict ℤ) (prices : Dict ℚ) :
    Except RebalanceError (List (Ticker × ℤ) × List (Ticker × ℤ)) :=
  if (allTickers prices).length = 0 then .error .emptyMarket
  else .ok (sellsOf cash stocks prices, buysOf cash stocks prices)

/-! ### The trade applier `apply_trades` (lines 199-224) -/

/-- The exceptions `apply_trades` can raise: the `ValueError`s of line 210
(`Cannot sell ...`, named `InsufficientShares` by the specification) and
line 220 (`Not enough cash ...`, named `InsufficientCash`), and the
`KeyError` raised by `prices[t]` (lines 211 and 218) when a traded ticker
is not in the price table. -/
inductive ApplyError : Type
  | insufficientShares
  | insufficientCash
  | keyError
  deriving DecidableEq

/-- The epsilon of line 219: `1e-8`. -/
def eps : ℚ := 1 / 100000000

/-- Lines 205-214: the sell loop.  Python mutates the caller's `stocks`
dict in place and `cash` is a local, so a raised exception leaves the
partially applied state; the embedding returns that state inside the
error. -/
def applySells (prices : Dict ℚ) :
    ℚ → Dict ℤ → List (Ticker × ℤ) → Except (ApplyError × ℚ × Dict ℤ) (ℚ × Dict ℤ)
  | cash, stocks, [] => .ok (cash, stocks)
  | cash, stocks, (t, qty) :: rest =>
    if qty ≤ 0 then applySells prices cash stocks rest
    else
      match dget stocks t with
      | none => .error (.insufficientShares, cash, stocks)
      | some held =>
        if held < qty then .error (.insufficientShares, cash, stocks)
        else
          match dget prices t with
          | none => .error (.keyError, cash, stocks)
          | some p =>
            let stocks₁ := dset stocks t (held - qty)
            applySells prices (cash + qty * p)
              (if held - qty = 0 then ddel stocks₁ t else stocks₁) rest

/-- Lines 216-222: the buy loop. -/
def applyBuys (prices : Dict ℚ) :
    ℚ → Dict ℤ → List (Ticker × ℤ) → Except (ApplyError × ℚ × Dict ℤ) (ℚ × Dict ℤ)
  | cash, stocks, [] => .ok (cash, stocks)
  | cash, stocks, (t, qty) :: rest =>
    match dget prices t with
    | none => .error (.keyError, cash, stocks)
    | some p =>
      if cash + eps < qty * p then .error (.insufficientCash, cash, stocks)
      else applyBuys prices (cash - qty * p) (dset stocks t (dgetD stocks t 0 + qty)) rest

/-- Lines 199-224: `apply_trades(cash, stocks, prices, sells, buys)`:
all sells first, then all buys. -/
def apply_trades (cash : ℚ) (stocks : Dict ℤ) (prices : Dict ℚ)
    (sells buys : List (Ticker × ℤ)) : Except (ApplyError × ℚ × Dict ℤ) (ℚ × Dict ℤ) :=
  match applySells prices cash stocks sells with
  | .error e => .error e
  | .ok (cash₁, stocks₁) => applyBuys prices cash₁ stocks₁ buys

/-! ### Association-list lemmas -/

theorem dget_dset {α : Type} (d : Dict α) (t u : Ticker) (v : α) :
    dget (dset d t v) u = if t = u then some v else dget d u := by
  induction d with
  | nil =>
    by_cases h : t = u <;> simp [dset, dget, h]
  | cons kw d ih =>
    obtain ⟨k, w⟩ := kw
    by_cases hk : k = t
    · subst hk
      by_cases h : k = u <;> simp [dset, dget, h]
    · by_cases h : k = u
      · subst h
        have ht : ¬ t = k := fun hh => hk hh.symm
        simp [dset, hk, dget, ht]
      · simp [dset, hk, dget, h, ih]

theorem keys_nil {α : Type} : keys ([] : Dict α) = [] := rfl

theorem keys_cons {α : Type} (k : Ticker) (w : α) (d : Dict α) :
    keys ((k, w) :: d) = k :: keys d := rfl

theorem dget_ddel_ne {α : Type} (d : Dict α) {t u : Ticker} (h : u ≠ t) :
    dget (ddel d t) u = dget d u := by
  induction d with
  | nil => rfl
  | cons kw d ih =>
    obtain ⟨k, w⟩ := kw
    by_cases hk : k = t
    · rw [ddel, if_pos hk, dget, if_neg (fun hh => h (by rw [← hh]; exact hk))]
    · rw [ddel, if_neg hk]
      by_cases hu : k = u
      · rw [dget, if_pos hu, dget, if_pos hu]
      · rw [dget, if_neg hu, dget, if_neg hu, ih]

theorem dget_eq_none_iff {α : Type} (d : Dict α) (t : Ticker) :
    dget d t = none ↔ t ∉ keys d := by
  induction d with
  | nil => simp [dget, keys]
  | cons kw d ih =>
    obtain ⟨k, w⟩ := kw
    rw [keys_cons]
    by_cases hk : k = t
    · subst hk; simp [dget]
    · rw [dget, if_neg hk, ih]
      simp only [List.mem_cons, not_or]
      exact ⟨fun hn => ⟨fun he => hk he.symm, hn⟩, fun hh => hh.2⟩

theorem dget_ddel_self {α : Type} (d : Dict α) (t : Ticker)
    (hnd : (keys d).Nodup) : dget (ddel d t) t = none := by
  induction d with
  | nil => simp [ddel, dget]
  | cons kw d ih =>
    obtain ⟨k, w⟩ := kw
    simp only [keys, List.map_cons, List.nodup_cons] at hnd
    by_cases hk : k = t
    · subst hk
      rw [ddel, if_pos rfl, dget_eq_none_iff]
      exact hnd.1
    · rw [ddel, if_neg hk, dget, if_neg hk]
      exact ih hnd.2

theorem keys_dset {α : Type} (d : Dict α) (t : Ticker) (v : α) :
    keys (dset d t v) = if t ∈ keys d then keys d else keys d ++ [t] := by
  induction d with
  | nil => simp [dset, keys]
  | cons kw d ih =>
    obtain ⟨k, w⟩ := kw
    by_cases hk : k = t
    · subst hk; simp [dset, keys_cons]
    · have ht : ¬ t = k := fun hh => hk hh.symm
      rw [dset, if_neg hk, keys_cons, keys_cons, ih]
      by_cases hm : t ∈ keys d
      · rw [if_pos hm, if_pos (List.mem_cons_of_mem k hm)]
      · rw [if_neg hm, if_neg (by simp [List.mem_cons, ht, hm]), List.cons_append]

theorem keys_dset_nodup {α : Type} (d : Dict α) (t : Ticker) (v : α)
    (hnd : (keys d).Nodup) : (keys (dset d t v)).Nodup := by
  rw [keys_dset]
  by_cases hm : t ∈ keys d
  · simpa [hm] using hnd
  · simp only [hm, if_false]
    simpa [List.nodup_append] using ⟨hnd, fun h => hm h⟩

theorem keys_ddel_sublist {α : Type} (d : Dict α) (t : Ticker) :
    (keys (ddel d t)).Sublist (keys d) := by
  induction d with
  | nil => simp [ddel]
  | cons kw d ih =>
    obtain ⟨k, w⟩ := kw
    by_cases hk : k = t
    · subst hk
      simp only [ddel, if_pos rfl, keys_cons]
      exact List.sublist_cons_self k (keys d)
    · simpa [ddel, hk, keys] using ih.cons₂ k

theorem keys_ddel_nodup {α : Type} (d : Dict α) (t : Ticker)
    (hnd : (keys d).Nodup) : (keys (ddel d t)).Nodup :=
  (keys_ddel_sublist d t).nodup hnd

/-! ### Lemmas about `allTickers` -/

theorem allTickers_perm (prices : Dict ℚ) : (allTickers prices).Perm (keys prices) :=
  List.perm_insertionSort tickLe (keys prices)

theorem mem_allTickers {prices : Dict ℚ} {t : Ticker} :
    t ∈ allTickers prices ↔ t ∈ keys prices :=
  (allTickers_perm prices).mem_iff

theorem allTickers_nodup {prices : Dict ℚ} (h : (keys prices).Nodup) :
    (allTickers prices).Nodup :=
  ((allTickers_perm prices).nodup_iff).mpr h

theorem allTickers_sorted (prices : Dict ℚ) :
    (allTickers prices).Sorted tickLe :=
  List.sorted_insertionSort tickLe (keys prices)

theorem allTickers_pairwise_lt {prices : Dict ℚ} (h : (keys prices).Nodup) :
    (allTickers prices).Pairwise tickLt := by
  have hs : (allTickers prices).Pairwise tickLe := allTickers_sorted prices
  have hn : (allTickers prices).Pairwise (· ≠ ·) := allTickers_nodup h
  exact (hs.and hn).imp fun {a b} hab =>
    tickLt_iff_le_not_le.mpr ⟨hab.1, fun hba => hab.2 (tickLe_antisymm hab.1 hba)⟩

/-- A sum over a list changes by exactly the change at `t` when the summand
changes only at `t` and `t` occurs exactly once. -/
theorem sum_map_update {l : List Ticker} (hnd : l.Nodup) {t : Ticker} (ht : t ∈ l)
    (f g : Ticker → ℚ) (hfg : ∀ u ∈ l, u ≠ t → g u = f u) :
    (l.map g).sum = (l.map f).sum + (g t - f t) := by
  induction l with
  | nil => cases ht
  | cons a l ih =>
    simp only [List.nodup_cons] at hnd
    rcases List.mem_cons.mp ht with rfl | hmem
    · have : ∀ u ∈ l, g u = f u := fun u hu =>
        hfg u (List.mem_cons_of_mem _ hu) (fun he => hnd.1 (he ▸ hu))
      rw [List.map_cons, List.map_cons, List.sum_cons, List.sum_cons,
        List.map_congr_left this]
      ring
    · have ha : a ≠ t := fun he => hnd.1 (he ▸ hmem)
      rw [List.map_cons, List.map_cons, List.sum_cons, List.sum_cons,
        ih hnd.2 hmem (fun u hu hne => hfg u (List.mem_cons_of_mem _ hu) hne),
        hfg a (List.mem_cons_self a l) ha]
      ring

/-- The greedy pass only ever grants a share when the price fits in the
remaining cash, so the remaining cash never becomes negative. -/
theorem grantPass_remaining_nonneg (prices : Dict ℚ) (l : List (Ticker × ℚ)) :
    ∀ (rem : ℚ) (s : Dict ℤ), 0 ≤ rem → 0 ≤ (grantPass prices l rem s).1 := by
  induction l with
  | nil => intro rem s h; exact h
  | cons a rest ih =>
    intro rem s h
    obtain ⟨t, r⟩ := a
    rw [grantPass]
    by_cases hp : priceOf prices t ≤ rem
    · rw [if_pos hp]
      exact ih _ _ (sub_nonneg.mpr hp)
    · rw [if_neg hp]
      exact ih _ _ h

/-! ### Claim C1 -/

unseal Rat.mul Rat.add Rat.sub Rat.inv in
/-- C1 counterexample: on prices `{A: 10, B: 20}`, empty holdings and cash
`100`, `rebalance` does NOT produce the claimed trades `buy A 5, buy B 2`.
(The leftover pass walks on past B and grants A an extra share, since
`price 10 ≤ leftover 10`.) -/
theorem C1_counterexample :
    rebalance 100 [] [("A", 10), ("B", 20)] ≠ .ok ([], [("A", 5), ("B", 2)]) := by
  intro h
  have h6 : rebalance 100 [] [("A", 10), ("B", 20)] = .ok ([], [("A", 6), ("B", 2)]) := rfl
  rw [h6] at h
  injection h with h'
  exact absurd h' (by decide)

unseal Rat.mul Rat.add Rat.sub Rat.inv in
/-- C1 amended: on prices `{A: 10, B: 20}`, empty holdings and cash `100`,
`rebalance` produces final quantities `A = 6` and `B = 2` — the two trades
`buy A 6` then `buy B 2` and no sells.  After flooring (`A = 5`, `B = 2`,
leftover `10`) the ranking is `B` (remainder `0.5`) then `A` (remainder
`0`); `B`'s price `20` exceeds the leftover, but the single greedy pass
continues and grants `A` one extra share because its price `10` is at most
the leftover `10`. -/
theorem C1_amended :
    rebalance 100 [] [("A", 10), ("B", 20)] = .ok ([], [("A", 6), ("B", 2)]) := rfl

/-! ### Claim C3 -/

/-- C3: `rebalance` fails — with the sole `rebalance` failure mode, the
division-by-zero at `target_value = total / N` that the specification
names `EmptyMarket` — exactly when the price table is empty; on a
non-empty price table it never fails. -/
theorem C3_emptyMarket (cash : ℚ) (stocks : Dict ℤ) (prices : Dict ℚ) :
    rebalance cash stocks prices = .error .emptyMarket ↔ prices = [] := by
  have hlen : (allTickers prices).length = prices.length := by
    rw [(allTickers_perm prices).length_eq, keys, List.length_map]
  rw [rebalance]
  by_cases h : (allTickers prices).length = 0
  · rw [if_pos h]
    have hp : prices = [] := List.length_eq_zero.mp (hlen ▸ h)
    simp [hp]
  · rw [if_neg h]
    have hp : prices ≠ [] := fun he => h (by rw [hlen, he]; rfl)
    simp [hp]

/-! ### Claim C4 -/

unseal Rat.mul Rat.add Rat.sub Rat.inv in
/-- C4 counterexample: with cash `19.999999999` and the single ticker
`A` priced `10`, the leftover after flooring is `9.999999999`, so `A`'s
price exceeds the leftover by `1e-9 ≤ 1e-8`; the claim says `A` is then
still granted an extra share (final quantity 2), but `rebalance` compares
exactly and produces only `buy A 1`. -/
theorem C4_counterexample :
    (totalValue (19999999999 / 1000000000) [] [("A", 10)] -
        costFloor [("A", 10)] (totalValue (19999999999 / 1000000000) [] [("A", 10)]))
      < priceOf [("A", 10)] "A" ∧
    priceOf [("A", 10)] "A" ≤
      (totalValue (19999999999 / 1000000000) [] [("A", 10)] -
        costFloor [("A", 10)] (totalValue (19999999999 / 1000000000) [] [("A", 10)])) + eps ∧
    rebalance (19999999999 / 1000000000) [] [("A", 10)] = .ok ([], [("A", 1)]) := by
  refine ⟨by decide, by decide, rfl⟩

/-- C4 amended: the can-afford comparison of the leftover pass is exact —
no epsilon is applied (the `1e-8` tolerance exists only in
`apply_trades`).  A ticker whose price strictly exceeds the remaining
leftover cash, even by at most `1e-8`, is not granted a share, and
consequently the leftover cash can never be driven negative by the pass. -/
theorem C4_amended (prices : Dict ℚ) (rem : ℚ) (s : Dict ℤ) (t : Ticker)
    (r : ℚ) (rest : List (Ticker × ℚ)) (hlt : rem < priceOf prices t) (hrem : 0 ≤ rem) :
    grantPass prices ((t, r) :: rest) rem s = grantPass prices rest rem s ∧
    0 ≤ (grantPass prices ((t, r) :: rest) rem s).1 := by
  have hskip : grantPass prices ((t, r) :: rest) rem s = grantPass prices rest rem s := by
    rw [grantPass, if_neg (not_le.mpr hlt)]
  exact ⟨hskip, hskip ▸ grantPass_remaining_nonneg prices rest rem s hrem⟩

/-- Witness for C4 amended at a concrete input. -/
theorem C4_witness :
    ((5 : ℚ) < priceOf [("A", 10)] "A" ∧ (0 : ℚ) ≤ 5) ∧
    (grantPass [("A", 10)] [("A", 0)] 5 [] = grantPass [("A", 10)] [] 5 [] ∧
      0 ≤ (grantPass [("A", 10)] [("A", 0)] 5 []).1) :=
  ⟨⟨by decide, by decide⟩,
    C4_amended [("A", 10)] 5 [] "A" 0 [] (by decide) (by decide)⟩

/-! ### Claim C5 -/

/-- The order the specification describes for the leftover ranking:
fractional remainder descending, ties broken by ticker ascending. -/
def lexRel (a b : Ticker × ℚ) : Prop := b.2 < a.2 ∨ (b.2 = a.2 ∧ tickLt a.1 b.1)

theorem lexRel_snd_le {a b : Ticker × ℚ} (h : lexRel a b) : b.2 ≤ a.2 := by
  rcases h with h | h
  · exact le_of_lt h
  · exact le_of_eq h.1

theorem orderedInsert_lex (x : Ticker × ℚ) :
    ∀ (l : List (Ticker × ℚ)), l.Pairwise lexRel → (∀ y ∈ l, tickLt x.1 y.1) →
      (List.orderedInsert (fun a b => b.2 ≤ a.2) x l).Pairwise lexRel := by
  intro l
  induction l with
  | nil =>
    intro _ _
    simp [List.orderedInsert]
  | cons y ys ih =>
    intro hp hx
    rw [List.orderedInsert]
    by_cases h : y.2 ≤ x.2
    · rw [if_pos h]
      refine List.pairwise_cons.mpr ⟨?_, hp⟩
      intro z hz
      have hzx : z.2 ≤ x.2 := by
        rcases List.mem_cons.mp hz with rfl | hz'
        · exact h
        · exact le_trans (lexRel_snd_le ((List.pairwise_cons.mp hp).1 z hz')) h
      rcases lt_or_eq_of_le hzx with hlt | heq
      · exact Or.inl hlt
      · exact Or.inr ⟨heq, hx z hz⟩
    · rw [if_neg h]
      refine List.pairwise_cons.mpr
        ⟨?_, ih (List.pairwise_cons.mp hp).2
          (fun z hz => hx z (List.mem_cons_of_mem _ hz))⟩
      intro z hz
      rcases (List.mem_orderedInsert _).mp hz with rfl | hz'
      · exact Or.inl (lt_of_not_le h)
      · exact (List.pairwise_cons.mp hp).1 z hz'

theorem insertionSort_lex :
    ∀ (l : List (Ticker × ℚ)), l.Pairwise (fun a b => tickLt a.1 b.1) →
      (List.insertionSort (fun a b => b.2 ≤ a.2) l).Pairwise lexRel := by
  intro l
  induction l with
  | nil =>
    intro _
    exact List.Pairwise.nil
  | cons x xs ih =>
    intro hp
    rw [List.insertionSort]
    refine orderedInsert_lex x _ (ih (List.pairwise_cons.mp hp).2) ?_
    intro y hy
    exact (List.pairwise_cons.mp hp).1 y
      ((List.perm_insertionSort _ xs).mem_iff.mp hy)

/-- C5: the ranking `rebalance` walks to distribute leftover cash is
ordered by fractional remainder descending, and two tickers with equal
remainders appear in ascending ticker order (Python's stable sort keeps
the `all_tickers`-ascending input order on ties), so the smaller ticker
is considered first for an extra share. -/
theorem C5_ranking (cash : ℚ) (stocks : Dict ℤ) (prices : Dict ℚ)
    (hnd : (keys prices).Nodup) :
    (rankedOf prices (totalValue cash stocks prices)).Pairwise lexRel := by
  rw [rankedOf]
  apply insertionSort_lex
  exact List.pairwise_map.mpr (allTickers_pairwise_lt hnd)

unseal Rat.mul Rat.add Rat.sub Rat.inv in
/-- Witness for C5 on a concrete input with a genuine remainder tie
(prices `{B: 10, A: 10}`, cash `25`: both remainders are `0.5`). -/
theorem C5_witness :
    (keys ([("B", 10), ("A", 10)] : Dict ℚ)).Nodup ∧
    (rankedOf [("B", 10), ("A", 10)] (totalValue 25 [] [("B", 10), ("A", 10)])).Pairwise lexRel :=
  ⟨by decide, C5_ranking 25 [] [("B", 10), ("A", 10)] (by decide)⟩

/-! ### Claim C6 -/

/-- The side of a printed trade line. -/
inductive Side : Type
  | sell
  | buy
  deriving DecidableEq

/-- Lines 263-266 of the script: the printed trade list — every line of
`sells` (as `!sell t qty`), then every line of `buys` (as `!buy t qty`). -/
def tradeLines (sells buys : List (Ticker × ℤ)) : List (Side × Ticker × ℤ) :=
  (sells.map fun x => (Side.sell, x)) ++ (buys.map fun x => (Side.buy, x))

theorem pairwise_of_trivial {α : Type} {R : α → α → Prop} (h : ∀ a b, R a b) :
    ∀ l : List α, l.Pairwise R := by
  intro l
  induction l with
  | nil => exact List.Pairwise.nil
  | cons a l ih => exact List.pairwise_cons.mpr ⟨fun b _ => h a b, ih⟩

theorem diffs_filter_fst_pairwise (cash : ℚ) (stocks : Dict ℤ) (prices : Dict ℚ)
    (hnd : (keys prices).Nodup) (p : Ticker × ℤ → Bool) :
    (((diffsOf cash stocks prices).filter p).map Prod.fst).Pairwise tickLt := by
  have hall : ((diffsOf cash stocks prices).map Prod.fst).Pairwise tickLt := by
    rw [diffsOf, List.map_map]
    exact List.pairwise_map.mpr (allTickers_pairwise_lt hnd)
  exact hall.sublist ((List.filter_sublist _).map Prod.fst)

/-- C6: the trade list printed by the script from `rebalance`'s output
lists every sell line before every buy line, and within each group the
tickers are strictly ascending. -/
theorem C6_sell_before_buy (cash : ℚ) (stocks : Dict ℤ) (prices : Dict ℚ)
    (sells buys : List (Ticker × ℤ)) (hnd : (keys prices).Nodup)
    (h : rebalance cash stocks prices = .ok (sells, buys)) :
    (sells.map Prod.fst).Pairwise tickLt ∧
    (buys.map Prod.fst).Pairwise tickLt ∧
    (tradeLines sells buys).Pairwise fun a b => a.1 = Side.sell ∨ b.1 = Side.buy := by
  have hsb : sells = sellsOf cash stocks prices ∧ buys = buysOf cash stocks prices := by
    rw [rebalance] at h
    by_cases h0 : (allTickers prices).length = 0
    · rw [if_pos h0] at h
      cases h
    · rw [if_neg h0] at h
      injection h with h'
      exact ⟨(congrArg Prod.fst h').symm, (congrArg Prod.snd h').symm⟩
  obtain ⟨hs, hb⟩ := hsb
  subst hs; subst hb
  refine ⟨?_, ?_, ?_⟩
  · have hmm : (sellsOf cash stocks prices).map Prod.fst =
        (((diffsOf cash stocks prices).filter fun x => x.2 < 0).map Prod.fst) := by
      rw [sellsOf, List.map_map]
      exact List.map_congr_left fun x _ => rfl
    rw [hmm]
    exact diffs_filter_fst_pairwise cash stocks prices hnd _
  · exact diffs_filter_fst_pairwise cash stocks prices hnd _
  · rw [tradeLines, List.pairwise_append]
    refine ⟨?_, ?_, ?_⟩
    · exact List.pairwise_map.mpr (pairwise_of_trivial (fun a b => Or.inl rfl) _)
    · exact List.pairwise_map.mpr (pairwise_of_trivial (fun a b => Or.inr rfl) _)
    · intro a ha b hb
      rcases List.mem_map.mp ha with ⟨x, _, rfl⟩
      exact Or.inl rfl

unseal Rat.mul Rat.add Rat.sub Rat.inv in
/-- Witness for C6 on a concrete input producing one sell and one buy. -/
theorem C6_witness :
    ((keys ([("A", 10), ("B", 10)] : Dict ℚ)).Nodup ∧
      rebalance 0 [("B", 10)] [("A", 10), ("B", 10)] = .ok ([("B", 5)], [("A", 5)])) ∧
    (([("B", (5 : ℤ))].map Prod.fst).Pairwise tickLt ∧
      ([("A", (5 : ℤ))].map Prod.fst).Pairwise tickLt ∧
      (tradeLines [("B", 5)] [("A", 5)]).Pairwise fun a b => a.1 = Side.sell ∨ b.1 = Side.buy) :=
  ⟨⟨by decide, by rfl⟩,
    C6_sell_before_buy 0 [("B", 10)] [("A", 10), ("B", 10)] [("B", 5)] [("A", 5)]
      (by decide) (by rfl)⟩

/-! ### Claim C2 -/

theorem dget_mem {α : Type} {d : Dict α} {t : Ticker} {v : α}
    (h : dget d t = some v) : (t, v) ∈ d := by
  induction d with
  | nil => cases h
  | cons kw d ih =>
    obtain ⟨k, w⟩ := kw
    rw [dget] at h
    by_cases hk : k = t
    · rw [if_pos hk] at h
      injection h with h'
      exact hk ▸ h' ▸ List.mem_cons_self _ _
    · exact List.mem_cons_of_mem _ (ih (by rwa [if_neg hk] at h))

theorem mem_keys_of_dget {α : Type} {d : Dict α} {t : Ticker} {v : α}
    (h : dget d t = some v) : t ∈ keys d :=
  List.mem_map.mpr ⟨(t, v), dget_mem h, rfl⟩

theorem dget_map_self {α : Type} (l : List Ticker) (f : Ticker → α) {t : Ticker}
    (ht : t ∈ l) : dget (l.map fun u => (u, f u)) t = some (f t) := by
  induction l with
  | nil => cases ht
  | cons u l ih =>
    rw [List.map_cons, dget]
    by_cases h : u = t
    · rw [if_pos h, h]
    · rw [if_neg h]
      rcases List.mem_cons.mp ht with rfl | h'
      · exact absurd rfl h
      · exact ih h'

theorem grantPass_get_not_mem (prices : Dict ℚ) (l : List (Ticker × ℚ)) :
    ∀ (rem : ℚ) (s : Dict ℤ) {t : Ticker}, t ∉ l.map Prod.fst →
      dget (grantPass prices l rem s).2 t = dget s t := by
  induction l with
  | nil => intro rem s t _; rfl
  | cons a rest ih =>
    intro rem s t ht
    obtain ⟨u, r⟩ := a
    have hut : ¬ u = t := fun h => ht (h ▸ List.mem_cons_self _ _)
    have htr : t ∉ rest.map Prod.fst := fun h => ht (List.mem_cons_of_mem _ h)
    rw [grantPass]
    by_cases hp : priceOf prices u ≤ rem
    · rw [if_pos hp, ih _ _ htr, dget_dset, if_neg hut]
    · rw [if_neg hp, ih _ _ htr]

/-- Over a ranking with no repeated ticker, the greedy pass grants each
ticker at most one extra share. -/
theorem grantPass_get_le (prices : Dict ℚ) (l : List (Ticker × ℚ)) :
    ∀ (rem : ℚ) (s : Dict ℤ) (t : Ticker), (l.map Prod.fst).Nodup →
      dgetD (grantPass prices l rem s).2 t 0 = dgetD s t 0 ∨
      dgetD (grantPass prices l rem s).2 t 0 = dgetD s t 0 + 1 := by
  induction l with
  | nil => intro rem s t _; exact Or.inl rfl
  | cons a rest ih =>
    intro rem s t hnd
    obtain ⟨u, r⟩ := a
    rw [List.map_cons, List.nodup_cons] at hnd
    rw [grantPass]
    by_cases hp : priceOf prices u ≤ rem
    · rw [if_pos hp]
      by_cases hut : u = t
      · subst hut
        rw [dgetD, grantPass_get_not_mem prices rest _ _ hnd.1, dget_dset, if_pos rfl]
        exact Or.inr rfl
      · have h2 : dgetD (dset s u (dgetD s u 0 + 1)) t 0 = dgetD s t 0 := by
          rw [dgetD, dget_dset, if_neg hut]; rfl
        rcases ih _ _ t hnd.2 with h | h
        · exact Or.inl (h.trans h2)
        · exact Or.inr (by rw [h, h2])
    · rw [if_neg hp]
      exact ih _ _ t hnd.2

theorem rankedOf_fst_nodup (prices : Dict ℚ) (total : ℚ)
    (hnd : (keys prices).Nodup) : ((rankedOf prices total).map Prod.fst).Nodup := by
  have hperm : (rankedOf prices total).map Prod.fst |>.Perm
      (((allTickers prices).map fun t =>
        (t, idealOf prices total t - (floorSharesOf prices total t : ℚ))).map Prod.fst) :=
    (List.perm_insertionSort _ _).map Prod.fst
  rw [hperm.nodup_iff, List.map_map]
  exact (List.nodup_map_iff_inj_on (allTickers_nodup hnd)).mpr fun a _ b _ h => h

/-- The value of the floored share count never exceeds the target. -/
theorem floorShares_mul_le (prices : Dict ℚ) (total : ℚ) (t : Ticker)
    (hp : 0 < priceOf prices t) :
    (floorSharesOf prices total t : ℚ) * priceOf prices t ≤ targetOf prices total := by
  have h1 : (floorSharesOf prices total t : ℚ) ≤ idealOf prices total t :=
    Int.floor_le _
  calc (floorSharesOf prices total t : ℚ) * priceOf prices t
      ≤ idealOf prices total t * priceOf prices t :=
        mul_le_mul_of_nonneg_right h1 hp.le
    _ = targetOf prices total := div_mul_cancel₀ _ (ne_of_gt hp)

/-- The value of the floored share count misses the target by less than
one share's price. -/
theorem floorShares_mul_gt (prices : Dict ℚ) (total : ℚ) (t : Ticker)
    (hp : 0 < priceOf prices t) :
    targetOf prices total - priceOf prices t <
      (floorSharesOf prices total t : ℚ) * priceOf prices t := by
  have h1 : idealOf prices total t - 1 < (floorSharesOf prices total t : ℚ) :=
    Int.sub_one_lt_floor _
  calc targetOf prices total - priceOf prices t
      = (idealOf prices total t - 1) * priceOf prices t := by
        rw [sub_mul, one_mul]
        have h2 : idealOf prices total t * priceOf prices t = targetOf prices total :=
          div_mul_cancel₀ _ (ne_of_gt hp)
        rw [h2]
    _ < (floorSharesOf prices total t : ℚ) * priceOf prices t :=
        mul_lt_mul_of_pos_right h1 hp

unseal Rat.mul Rat.add Rat.sub Rat.inv in
/-- C2 counterexample: on prices `{A: 10, B: 20}`, holdings `{}` and cash
`100` (valid input), the target is `50` but ticker `A`'s final allocated
value is `6 * 10 = 60`, outside the claimed interval
`[target - price, target] = [40, 50]`. -/
theorem C2_counterexample :
    targetOf [("A", 10), ("B", 20)] (totalValue 100 [] [("A", 10), ("B", 20)]) = 50 ∧
    ((dgetD (newSharesOf [("A", 10), ("B", 20)]
        (totalValue 100 [] [("A", 10), ("B", 20)])) "A" 0 : ℤ) : ℚ) *
      priceOf [("A", 10), ("B", 20)] "A" = 60 ∧
    ¬ (((dgetD (newSharesOf [("A", 10), ("B", 20)]
        (totalValue 100 [] [("A", 10), ("B", 20)])) "A" 0 : ℤ) : ℚ) *
      priceOf [("A", 10), ("B", 20)] "A" ≤
        targetOf [("A", 10), ("B", 20)] (totalValue 100 [] [("A", 10), ("B", 20)])) :=
  ⟨by decide, by decide, by decide⟩

/-- C2 amended: for every valid input and every priced ticker `t`, the
final allocated value lies within `[target - price t, target + price t]`:
flooring never overshoots the target, and the at most one extra share the
leftover pass can grant adds at most one share's price. -/
theorem C2_amended (cash : ℚ) (stocks : Dict ℤ) (prices : Dict ℚ)
    (hnd : (keys prices).Nodup) (hpos : ∀ x ∈ prices, 0 < x.2)
    (_hcash : 0 ≤ cash) (_hstk : ∀ x ∈ stocks, (0 : ℤ) ≤ x.2)
    (t : Ticker) (p : ℚ) (hp : dget prices t = some p) :
    targetOf prices (totalValue cash stocks prices) - p ≤
      ((dgetD (newSharesOf prices (totalValue cash stocks prices)) t 0 : ℤ) : ℚ) * p ∧
    ((dgetD (newSharesOf prices (totalValue cash stocks prices)) t 0 : ℤ) : ℚ) * p ≤
      targetOf prices (totalValue cash stocks prices) + p := by
  have hpt : priceOf prices t = p := by rw [priceOf, dgetD, hp]; rfl
  have hppos : 0 < p := hpos (t, p) (dget_mem hp)
  have htmem : t ∈ allTickers prices := mem_allTickers.mpr (mem_keys_of_dget hp)
  set total := totalValue cash stocks prices with htotal
  have hfloor0 : dgetD (floorShareDict prices total) t 0 = floorSharesOf prices total t := by
    rw [floorShareDict, dgetD, dget_map_self _ _ htmem]; rfl
  have hgrant : dgetD (newSharesOf prices total) t 0 = floorSharesOf prices total t ∨
      dgetD (newSharesOf prices total) t 0 = floorSharesOf prices total t + 1 := by
    have hg := grantPass_get_le prices (rankedOf prices total)
      (total - costFloor prices total) (floorShareDict prices total) t
      (rankedOf_fst_nodup prices total hnd)
    rw [hfloor0] at hg
    exact hg
  have hle := floorShares_mul_le prices total t (hpt ▸ hppos)
  have hgt := floorShares_mul_gt prices total t (hpt ▸ hppos)
  rw [hpt] at hle hgt
  rcases hgrant with h | h
  · rw [h]
    exact ⟨le_of_lt hgt, le_trans hle (by linarith)⟩
  · rw [h]
    have hcast : (((floorSharesOf prices total t + 1 : ℤ)) : ℚ) * p =
        (floorSharesOf prices total t : ℚ) * p + p := by
      push_cast
      ring
    rw [hcast]
    exact ⟨by linarith, by linarith⟩

unseal Rat.mul Rat.add Rat.sub Rat.inv in
/-- Witness for C2 amended at the C1 scenario, ticker `B`. -/
theorem C2_witness :
    ((keys ([("A", 10), ("B", 20)] : Dict ℚ)).Nodup ∧
      (∀ x ∈ ([("A", 10), ("B", 20)] : Dict ℚ), 0 < x.2) ∧
      (0 : ℚ) ≤ 100 ∧ (∀ x ∈ ([] : Dict ℤ), (0 : ℤ) ≤ x.2) ∧
      dget ([("A", 10), ("B", 20)] : Dict ℚ) "B" = some 20) ∧
    (targetOf [("A", 10), ("B", 20)] (totalValue 100 [] [("A", 10), ("B", 20)]) - 20 ≤
      ((dgetD (newSharesOf [("A", 10), ("B", 20)]
        (totalValue 100 [] [("A", 10), ("B", 20)])) "B" 0 : ℤ) : ℚ) * 20 ∧
    ((dgetD (newSharesOf [("A", 10), ("B", 20)]
        (totalValue 100 [] [("A", 10), ("B", 20)])) "B" 0 : ℤ) : ℚ) * 20 ≤
      targetOf [("A", 10), ("B", 20)] (totalValue 100 [] [("A", 10), ("B", 20)]) + 20) :=
  ⟨⟨by decide, by decide, by decide, by decide, by decide⟩,
    C2_amended 100 [] [("A", 10), ("B", 20)] (by decide) (by decide) (by decide)
      (by decide) "B" 20 (by decide)⟩

/-! ### Claim C7 -/

theorem dget_some_of_mem_keys {α : Type} {d : Dict α} {t : Ticker}
    (h : t ∈ keys d) : ∃ v, dget d t = some v := by
  cases hd : dget d t with
  | none => exact absurd h ((dget_eq_none_iff d t).mp hd)
  | some v => exact ⟨v, rfl⟩

/-- One successful sell or buy of `q` shares of a priced ticker changes
the stock value by `-q * p` resp. `q * p`; this is the per-step form of
value conservation.  `stockValue` sums over the (`Nodup`) priced tickers. -/
theorem stockValue_dset (stocks : Dict ℤ) (prices : Dict ℚ)
    (hndp : (keys prices).Nodup) {t : Ticker} {p : ℚ}
    (hp : dget prices t = some p) (v : ℤ) :
    stockValue (dset stocks t v) prices =
      stockValue stocks prices + ((v : ℚ) - (dgetD stocks t 0 : ℤ)) * p := by
  have htmem : t ∈ allTickers prices := mem_allTickers.mpr (mem_keys_of_dget hp)
  have hpt : priceOf prices t = p := by rw [priceOf, dgetD, hp]; rfl
  have hnd : (allTickers prices).Nodup := allTickers_nodup hndp
  rw [stockValue, stockValue,
    sum_map_update hnd htmem
      (fun u => ((dgetD stocks u 0 : ℤ) : ℚ) * priceOf prices u)
      (fun u => ((dgetD (dset stocks t v) u 0 : ℤ) : ℚ) * priceOf prices u)
      (fun u _ hu => by
        have h1 : dgetD (dset stocks t v) u 0 = dgetD stocks u 0 := by
          rw [dgetD, dget_dset, if_neg (fun hh => hu hh.symm)]
          rfl
        simp only [h1])]
  have hvt : dgetD (dset stocks t v) t 0 = v := by
    rw [dgetD, dget_dset, if_pos rfl]
    rfl
  simp only [hvt, hpt]
  ring

theorem stockValue_ddel_zero (stocks : Dict ℤ) (prices : Dict ℚ)
    (hnds : (keys stocks).Nodup) {t : Ticker}
    (h0 : dgetD stocks t 0 = 0) :
    stockValue (ddel stocks t) prices = stockValue stocks prices := by
  rw [stockValue, stockValue]
  refine congrArg List.sum (List.map_congr_left ?_)
  intro u _
  by_cases hu : u = t
  · subst hu
    have h1 : dgetD (ddel stocks u) u 0 = 0 := by
      rw [dgetD, dget_ddel_self stocks u hnds]
      rfl
    rw [h1, h0]
  · have h1 : dgetD (ddel stocks t) u 0 = dgetD stocks u 0 := by
      rw [dgetD, dget_ddel_ne stocks hu]
      rfl
    rw [h1]

theorem applySells_totalValue (prices : Dict ℚ) (hndp : (keys prices).Nodup)
    (l : List (Ticker × ℤ)) :
    ∀ (c : ℚ) (s : Dict ℤ) (c₁ : ℚ) (s₁ : Dict ℤ), (keys s).Nodup →
      applySells prices c s l = .ok (c₁, s₁) →
      totalValue c₁ s₁ prices = totalValue c s prices ∧ (keys s₁).Nodup := by
  induction l with
  | nil =>
    intro c s c₁ s₁ hnds h
    rw [applySells] at h
    injection h with h'
    injection h' with h1 h2
    subst h1; subst h2
    exact ⟨rfl, hnds⟩
  | cons a rest ih =>
    intro c s c₁ s₁ hnds h
    obtain ⟨t, q⟩ := a
    rw [applySells] at h
    split at h
    · exact ih c s c₁ s₁ hnds h
    · split at h
      · cases h
      · rename_i hq held hst
        split at h
        · cases h
        · rename_i hlt
          split at h
          · cases h
          · rename_i p hpt
            have h2 : applySells prices (c + q * p)
                (if held - q = 0 then ddel (dset s t (held - q)) t
                  else dset s t (held - q)) rest = .ok (c₁, s₁) := h
            have hheld : dgetD s t 0 = held := by rw [dgetD, hst]; rfl
            by_cases hz : held - q = 0
            · rw [if_pos hz] at h2
              have hnds' : (keys (ddel (dset s t (held - q)) t)).Nodup :=
                keys_ddel_nodup _ _ (keys_dset_nodup _ _ _ hnds)
              have hstep := ih _ _ c₁ s₁ hnds' h2
              refine ⟨?_, hstep.2⟩
              rw [hstep.1]
              have hdz : dgetD (dset s t (held - q)) t 0 = 0 := by
                rw [dgetD, dget_dset, if_pos rfl, hz]
                rfl
              rw [totalValue, totalValue,
                stockValue_ddel_zero _ _ (keys_dset_nodup _ _ _ hnds) hdz,
                stockValue_dset s prices hndp hpt, hheld]
              push_cast
              ring
            · rw [if_neg hz] at h2
              have hstep := ih _ _ c₁ s₁ (keys_dset_nodup _ _ _ hnds) h2
              refine ⟨?_, hstep.2⟩
              rw [hstep.1, totalValue, totalValue,
                stockValue_dset s prices hndp hpt, hheld]
              push_cast
              ring

theorem applyBuys_totalValue (prices : Dict ℚ) (hndp : (keys prices).Nodup)
    (l : List (Ticker × ℤ)) :
    ∀ (c : ℚ) (s : Dict ℤ) (c₁ : ℚ) (s₁ : Dict ℤ), (keys s).Nodup →
      applyBuys prices c s l = .ok (c₁, s₁) →
      totalValue c₁ s₁ prices = totalValue c s prices ∧ (keys s₁).Nodup := by
  induction l with
  | nil =>
    intro c s c₁ s₁ hnds h
    rw [applyBuys] at h
    injection h with h'
    injection h' with h1 h2
    subst h1; subst h2
    exact ⟨rfl, hnds⟩
  | cons a rest ih =>
    intro c s c₁ s₁ hnds h
    obtain ⟨t, q⟩ := a
    rw [applyBuys] at h
    split at h
    · cases h
    · rename_i p hpt
      split at h
      · cases h
      · have hstep := ih (c - q * p) (dset s t (dgetD s t 0 + q)) c₁ s₁
          (keys_dset_nodup _ _ _ hnds) h
        refine ⟨?_, hstep.2⟩
        rw [hstep.1, totalValue, totalValue,
          stockValue_dset s prices hndp hpt]
        push_cast
        ring

/-- C7: whenever `apply_trades` succeeds, total portfolio value (cash plus
the value of the holdings at the given prices) is exactly conserved —
hence in particular conserved within any epsilon. -/
theorem C7_value_conservation (cash : ℚ) (stocks : Dict ℤ) (prices : Dict ℚ)
    (sells buys : List (Ticker × ℤ)) (cash' : ℚ) (stocks' : Dict ℤ)
    (hndp : (keys prices).Nodup) (hnds : (keys stocks).Nodup)
    (h : apply_trades cash stocks prices sells buys = .ok (cash', stocks')) :
    totalValue cash' stocks' prices = totalValue cash stocks prices := by
  rw [apply_trades] at h
  cases hsell : applySells prices cash stocks sells with
  | error e =>
    rw [hsell] at h
    cases h
  | ok cs =>
    obtain ⟨c₁, s₁⟩ := cs
    rw [hsell] at h
    have h1 := applySells_totalValue prices hndp sells cash stocks c₁ s₁ hnds hsell
    have h2 := applyBuys_totalValue prices hndp buys c₁ s₁ cash' stocks' h1.2 h
    rw [h2.1, h1.1]

unseal Rat.mul Rat.add Rat.sub Rat.inv in
/-- Witness for C7: sell one A at 10, buy two B at 4 from cash 5. -/
theorem C7_witness :
    ((keys ([("A", 10), ("B", 4)] : Dict ℚ)).Nodup ∧
      (keys ([("A", 1)] : Dict ℤ)).Nodup ∧
      apply_trades 5 [("A", 1)] [("A", 10), ("B", 4)] [("A", 1)] [("B", 2)] =
        .ok (7, [("B", 2)])) ∧
    totalValue 7 [("B", 2)] [("A", 10), ("B", 4)] =
      totalValue 5 [("A", 1)] [("A", 10), ("B", 4)] :=
  ⟨⟨by decide, by decide, by rfl⟩,
    C7_value_conservation 5 [("A", 1)] [("A", 10), ("B", 4)] [("A", 1)] [("B", 2)]
      7 [("B", 2)] (by decide) (by decide) (by rfl)⟩

/-! ### Claim C9 -/

theorem eps_pos : 0 < eps := by norm_num [eps]

/-- C9 counterexample: a sell of 1 share of `A` with 1 share held (so not
requesting more than held) against an empty price table fails — but with
the `KeyError` from `prices[t]`, not with either of the two claimed
failure modes. -/
theorem C9_counterexample :
    apply_trades 0 [("A", 1)] [] [("A", 1)] [] =
      .error (.keyError, 0, [("A", 1)]) ∧
    ApplyError.keyError ≠ ApplyError.insufficientShares ∧
    ApplyError.keyError ≠ ApplyError.insufficientCash ∧
    (1 : ℤ) ≤ dgetD ([("A", 1)] : Dict ℤ) "A" 0 :=
  ⟨rfl, by decide, by decide, by decide⟩

theorem applySells_append (prices : Dict ℚ) (l₁ l₂ : List (Ticker × ℤ)) :
    ∀ (c : ℚ) (s : Dict ℤ), applySells prices c s (l₁ ++ l₂) =
      match applySells prices c s l₁ with
      | .error e => .error e
      | .ok (c₁, s₁) => applySells prices c₁ s₁ l₂ := by
  induction l₁ with
  | nil => intro c s; rfl
  | cons a rest ih =>
    intro c s
    obtain ⟨t, q⟩ := a
    rw [List.cons_append]
    by_cases hq : q ≤ 0
    · simp only [applySells, if_pos hq]
      exact ih c s
    · cases hst : dget s t with
      | none => simp only [applySells, if_neg hq, hst]
      | some held =>
        by_cases hlt : held < q
        · simp only [applySells, if_neg hq, hst, if_pos hlt]
        · cases hpt : dget prices t with
          | none => simp only [applySells, if_neg hq, hst, if_neg hlt, hpt]
          | some p =>
            simp only [applySells, if_neg hq, hst, if_neg hlt, hpt]
            exact ih _ _

theorem applyBuys_append (prices : Dict ℚ) (l₁ l₂ : List (Ticker × ℤ)) :
    ∀ (c : ℚ) (s : Dict ℤ), applyBuys prices c s (l₁ ++ l₂) =
      match applyBuys prices c s l₁ with
      | .error e => .error e
      | .ok (c₁, s₁) => applyBuys prices c₁ s₁ l₂ := by
  induction l₁ with
  | nil => intro c s; rfl
  | cons a rest ih =>
    intro c s
    obtain ⟨t, q⟩ := a
    rw [List.cons_append]
    cases hpt : dget prices t with
    | none => simp only [applyBuys, hpt]
    | some p =>
      by_cases hc : c + eps < q * p
      · simp only [applyBuys, hpt, if_pos hc]
      · simp only [applyBuys, hpt, if_neg hc]
        exact ih _ _

/-- C9 amended: provided every traded ticker has a price, `apply_trades`
processes all sells then all buys in order and fails exactly when a sell
requests more shares than currently held (the `InsufficientShares`
`ValueError`) or a buy costs more than current cash plus the `1e-8`
epsilon (the `InsufficientCash` `ValueError`); the error carries the
partially-applied state reached so far (the two append equations show
earlier trades in the batch stay applied), a within-holdings sell or
within-cash buy instead continues with the updated state, and a sell that
brings a ticker's quantity to zero removes its entry from holdings.  (On
a ticker absent from the price table, `apply_trades` can instead fail
with a `KeyError` — the correction this claim needs.) -/
theorem C9_amended (prices : Dict ℚ) :
    (∀ (l₁ l₂ : List (Ticker × ℤ)) (c : ℚ) (s : Dict ℤ),
      applySells prices c s (l₁ ++ l₂) =
        match applySells prices c s l₁ with
        | .error e => .error e
        | .ok (c₁, s₁) => applySells prices c₁ s₁ l₂) ∧
    (∀ (l₁ l₂ : List (Ticker × ℤ)) (c : ℚ) (s : Dict ℤ),
      applyBuys prices c s (l₁ ++ l₂) =
        match applyBuys prices c s l₁ with
        | .error e => .error e
        | .ok (c₁, s₁) => applyBuys prices c₁ s₁ l₂) ∧
    (∀ (c : ℚ) (s : Dict ℤ) (t : Ticker) (q : ℤ) (rest : List (Ticker × ℤ)),
      0 < q → dgetD s t 0 < q →
      applySells prices c s ((t, q) :: rest) = .error (.insufficientShares, c, s)) ∧
    (∀ (c : ℚ) (s : Dict ℤ) (t : Ticker) (q : ℤ) (rest : List (Ticker × ℤ)) (p : ℚ),
      dget prices t = some p → 0 < q → q ≤ dgetD s t 0 →
      applySells prices c s ((t, q) :: rest) =
        applySells prices (c + q * p)
          (if dgetD s t 0 - q = 0 then ddel (dset s t (dgetD s t 0 - q)) t
            else dset s t (dgetD s t 0 - q)) rest) ∧
    (∀ (c : ℚ) (s : Dict ℤ) (t : Ticker) (q : ℤ) (rest : List (Ticker × ℤ)) (p : ℚ),
      dget prices t = some p → c + eps < q * p →
      applyBuys prices c s ((t, q) :: rest) = .error (.insufficientCash, c, s)) ∧
    (∀ (c : ℚ) (s : Dict ℤ) (t : Ticker) (q : ℤ) (rest : List (Ticker × ℤ)) (p : ℚ),
      dget prices t = some p → ¬ c + eps < q * p →
      applyBuys prices c s ((t, q) :: rest) =
        applyBuys prices (c - q * p) (dset s t (dgetD s t 0 + q)) rest) ∧
    (∀ (s : Dict ℤ) (t : Ticker) (q : ℤ),
      0 < q → q = dgetD s t 0 → (keys s).Nodup →
      dget (ddel (dset s t (dgetD s t 0 - q)) t) t = none) := by
  refine ⟨applySells_append prices, applyBuys_append prices, ?_, ?_, ?_, ?_, ?_⟩
  · intro c s t q rest hq hlt
    cases hst : dget s t with
    | none => simp only [applySells, if_neg (not_le.mpr hq), hst]
    | some held =>
      have hheld : dgetD s t 0 = held := by rw [dgetD, hst]; rfl
      rw [hheld] at hlt
      simp only [applySells, if_neg (not_le.mpr hq), hst, if_pos hlt]
  · intro c s t q rest p hpt hq hle
    cases hst : dget s t with
    | none =>
      simp only [dgetD, hst, Option.getD_none] at hle
      exact absurd hle (not_le.mpr hq)
    | some held =>
      have hheld : dgetD s t 0 = held := by rw [dgetD, hst]; rfl
      rw [hheld] at hle ⊢
      simp only [applySells, if_neg (not_le.mpr hq), hst, if_neg (not_lt.mpr hle), hpt]
  · intro c s t q rest p hpt hc
    simp only [applyBuys, hpt, if_pos hc]
  · intro c s t q rest p hpt hc
    simp only [applyBuys, hpt, if_neg hc]
  · intro s t q _ _ hnds
    exact dget_ddel_self _ _ (keys_dset_nodup _ _ _ hnds)

/-- Witness for C9 amended: the failing-sell conjunct at a concrete
input (sell 5 of `A` while holding 1). -/
theorem C9_witness :
    ((0 : ℤ) < 5 ∧ dgetD ([("A", 1)] : Dict ℤ) "A" 0 < 5) ∧
    applySells [("A", 2)] 0 [("A", 1)] [("A", 5)] =
      .error (.insufficientShares, 0, [("A", 1)]) :=
  ⟨⟨by decide, by decide⟩,
    (C9_amended [("A", 2)]).2.2.1 0 [("A", 1)] "A" 5 [] (by decide) (by decide)⟩

/-! ### Claim C10 -/

/-- C10: at the `apply_trades` interface, a sell entry with quantity
`≤ 0` is silently skipped (no error, no state change), while a buy entry
with quantity `0` of a priced ticker (with non-negative cash) is a
successful zero-cost purchase that sets `holdings[ticker]` to its current
value — creating an explicit zero-quantity entry when the ticker was
absent. -/
theorem C10_zero_quantities (prices : Dict ℚ) (cash : ℚ) (stocks : Dict ℤ)
    (t : Ticker) (q : ℤ) (rest : List (Ticker × ℤ)) (p : ℚ)
    (hq : q ≤ 0) (hp : dget prices t = some p) (hcash : 0 ≤ cash)
    (habs : dget stocks t = none) :
    applySells prices cash stocks ((t, q) :: rest) =
      applySells prices cash stocks rest ∧
    applyBuys prices cash stocks ((t, 0) :: rest) =
      applyBuys prices cash (dset stocks t (dgetD stocks t 0)) rest ∧
    dget (dset stocks t (dgetD stocks t 0)) t = some 0 := by
  refine ⟨by rw [applySells, if_pos hq], ?_, ?_⟩
  · have hno : ¬ cash + eps < 0 := by
      have := eps_pos
      intro hcon
      linarith
    simp only [applyBuys, hp, Int.cast_zero, zero_mul, sub_zero, add_zero]
    rw [if_neg hno]
  · rw [dget_dset, if_pos rfl, dgetD, habs]
    rfl

/-- Witness for C10 at a concrete input. -/
theorem C10_witness :
    ((-1 : ℤ) ≤ 0 ∧ dget ([("A", 2)] : Dict ℚ) "A" = some 2 ∧ (0 : ℚ) ≤ 3 ∧
      dget ([] : Dict ℤ) "A" = none) ∧
    (applySells [("A", 2)] 3 [] [("A", -1)] = applySells [("A", 2)] 3 [] [] ∧
      applyBuys [("A", 2)] 3 [] [("A", 0)] =
        applyBuys [("A", 2)] 3 (dset [] "A" (dgetD ([] : Dict ℤ) "A" 0)) [] ∧
      dget (dset ([] : Dict ℤ) "A" (dgetD ([] : Dict ℤ) "A" 0)) "A" = some 0) :=
  ⟨⟨by decide, by decide, by decide, by decide⟩,
    C10_zero_quantities [("A", 2)] 3 [] "A" (-1) [] 2
      (by decide) (by decide) (by decide) (by decide)⟩

/-! ### Claim C8 — infrastructure -/

theorem allTickers_length (prices : Dict ℚ) :
    (allTickers prices).length = prices.length := by
  rw [(allTickers_perm prices).length_eq, keys, List.length_map]

theorem dget_eq_of_mem {α : Type} {l : Dict α} (hnd : (keys l).Nodup)
    {t : Ticker} {v : α} (h : (t, v) ∈ l) : dget l t = some v := by
  induction l with
  | nil => cases h
  | cons kw d ih =>
    obtain ⟨k, w⟩ := kw
    rw [keys_cons, List.nodup_cons] at hnd
    rcases List.mem_cons.mp h with heq | hmem
    · injection heq with h1 h2
      rw [dget, if_pos h1.symm, h2]
    · rw [dget]
      by_cases hk : k = t
      · exact absurd (hk ▸ List.mem_map.mpr ⟨(t, v), hmem, rfl⟩) hnd.1
      · rw [if_neg hk]
        exact ih hnd.2 hmem

theorem map_fst_mk {β : Type} (l : List Ticker) (f : Ticker → β) :
    ((l.map fun t => (t, f t)).map Prod.fst) = l := by
  induction l with
  | nil => rfl
  | cons a l ih => rw [List.map_cons, List.map_cons, ih]

theorem diffsOf_map_fst (cash : ℚ) (stocks : Dict ℤ) (prices : Dict ℚ) :
    (diffsOf cash stocks prices).map Prod.fst = allTickers prices := by
  rw [diffsOf]
  exact map_fst_mk _ _

theorem sellsOf_map_fst (cash : ℚ) (stocks : Dict ℤ) (prices : Dict ℚ) :
    (sellsOf cash stocks prices).map Prod.fst =
      ((diffsOf cash stocks prices).filter fun x => x.2 < 0).map Prod.fst := by
  rw [sellsOf, List.map_map]
  exact List.map_congr_left fun x _ => rfl

theorem sellsOf_fst_nodup (cash : ℚ) (stocks : Dict ℤ) (prices : Dict ℚ)
    (hndp : (keys prices).Nodup) :
    ((sellsOf cash stocks prices).map Prod.fst).Nodup := by
  rw [sellsOf_map_fst]
  refine List.Sublist.nodup ((List.filter_sublist _).map Prod.fst) ?_
  rw [diffsOf_map_fst]
  exact allTickers_nodup hndp

theorem buysOf_fst_nodup (cash : ℚ) (stocks : Dict ℤ) (prices : Dict ℚ)
    (hndp : (keys prices).Nodup) :
    ((buysOf cash stocks prices).map Prod.fst).Nodup := by
  rw [buysOf]
  refine List.Sublist.nodup ((List.filter_sublist _).map Prod.fst) ?_
  rw [diffsOf_map_fst]
  exact allTickers_nodup hndp

theorem sum_map_const (l : List Ticker) (b : ℚ) :
    (l.map fun _ => b).sum = (l.length : ℚ) * b := by
  induction l with
  | nil => simp
  | cons a l ih =>
    rw [List.map_cons, List.sum_cons, ih, List.length_cons]
    push_cast
    ring

theorem sum_map_sub (l : List Ticker) (f g : Ticker → ℚ) :
    (l.map fun u => f u - g u).sum = (l.map f).sum - (l.map g).sum := by
  induction l with
  | nil => simp
  | cons a l ih =>
    rw [List.map_cons, List.map_cons, List.map_cons,
      List.sum_cons, List.sum_cons, List.sum_cons, ih]
    ring

theorem priceOf_pos_of_mem {prices : Dict ℚ} (hpos : ∀ x ∈ prices, 0 < x.2)
    {u : Ticker} (hu : u ∈ keys prices) : 0 < priceOf prices u := by
  obtain ⟨v, hv⟩ := dget_some_of_mem_keys hu
  have hvp := hpos (u, v) (dget_mem hv)
  rw [priceOf, dgetD, hv]
  exact hvp

theorem dgetD_nonneg {stocks : Dict ℤ} (hstk : ∀ x ∈ stocks, (0 : ℤ) ≤ x.2)
    (u : Ticker) : 0 ≤ dgetD stocks u 0 := by
  cases hs : dget stocks u with
  | none => rw [dgetD, hs]; exact le_refl 0
  | some v =>
    have := hstk (u, v) (dget_mem hs)
    rw [dgetD, hs]
    exact this

theorem totalValue_nonneg (cash : ℚ) (stocks : Dict ℤ) (prices : Dict ℚ)
    (hpos : ∀ x ∈ prices, 0 < x.2) (hcash : 0 ≤ cash)
    (hstk : ∀ x ∈ stocks, (0 : ℤ) ≤ x.2) :
    0 ≤ totalValue cash stocks prices := by
  rw [totalValue, stockValue]
  have hsum : (0 : ℚ) ≤ ((allTickers prices).map fun t =>
      ((dgetD stocks t 0 : ℤ) : ℚ) * priceOf prices t).sum := by
    apply List.sum_nonneg
    intro a ha
    rcases List.mem_map.mp ha with ⟨u, hu, rfl⟩
    have hp := priceOf_pos_of_mem hpos (mem_allTickers.mp hu)
    have hq := dgetD_nonneg hstk u
    positivity
  linarith

/-- Each ticker's diff computed by `rebalance`:
`new_shares[t] - stocks.get(t, 0)`. -/
def diffAt (cash : ℚ) (stocks : Dict ℤ) (prices : Dict ℚ) (u : Ticker) : ℤ :=
  dgetD (newSharesOf prices (totalValue cash stocks prices)) u 0 - dgetD stocks u 0

theorem mem_diffsOf {cash : ℚ} {stocks : Dict ℤ} {prices : Dict ℚ}
    {x : Ticker × ℤ} (hx : x ∈ diffsOf cash stocks prices) :
    x.1 ∈ allTickers prices ∧ x = (x.1, diffAt cash stocks prices x.1) := by
  rw [diffsOf] at hx
  rcases List.mem_map.mp hx with ⟨u, hu, rfl⟩
  exact ⟨hu, rfl⟩

theorem diffsOf_mem_of (cash : ℚ) (stocks : Dict ℤ) (prices : Dict ℚ)
    {u : Ticker} (hu : u ∈ allTickers prices) :
    (u, diffAt cash stocks prices u) ∈ diffsOf cash stocks prices := by
  rw [diffsOf]
  exact List.mem_map.mpr ⟨u, hu, rfl⟩

theorem dgetD_sellsOf_eq (cash : ℚ) (stocks : Dict ℤ) (prices : Dict ℚ)
    (hndp : (keys prices).Nodup) (u : Ticker) :
    dgetD (sellsOf cash stocks prices) u 0 =
      if u ∈ allTickers prices ∧ diffAt cash stocks prices u < 0
      then -(diffAt cash stocks prices u) else 0 := by
  by_cases h : u ∈ allTickers prices ∧ diffAt cash stocks prices u < 0
  · rw [if_pos h]
    have hmem : (u, -(diffAt cash stocks prices u)) ∈ sellsOf cash stocks prices := by
      rw [sellsOf]
      refine List.mem_map.mpr ⟨(u, diffAt cash stocks prices u), ?_, rfl⟩
      refine List.mem_filter.mpr ⟨diffsOf_mem_of cash stocks prices h.1, ?_⟩
      simp only [decide_eq_true_eq]
      exact h.2
    rw [dgetD, dget_eq_of_mem (sellsOf_fst_nodup cash stocks prices hndp) hmem]
    rfl
  · rw [if_neg h]
    have hnone : dget (sellsOf cash stocks prices) u = none := by
      rw [dget_eq_none_iff]
      intro hmem
      rw [keys, sellsOf_map_fst] at hmem
      rcases List.mem_map.mp hmem with ⟨x, hx, rfl⟩
      have hx1 := List.mem_filter.mp hx
      obtain ⟨hall, hxeq⟩ := mem_diffsOf hx1.1
      have hneg : x.2 < 0 := by
        have := hx1.2
        simp only [decide_eq_true_eq] at this
        exact this
      have hx2 : x.2 = diffAt cash stocks prices x.1 := by
        rw [hxeq]
      exact h ⟨hall, hx2 ▸ hneg⟩
    rw [dgetD, hnone]
    rfl

theorem dgetD_buysOf_eq (cash : ℚ) (stocks : Dict ℤ) (prices : Dict ℚ)
    (hndp : (keys prices).Nodup) (u : Ticker) :
    dgetD (buysOf cash stocks prices) u 0 =
      if u ∈ allTickers prices ∧ 0 < diffAt cash stocks prices u
      then diffAt cash stocks prices u else 0 := by
  by_cases h : u ∈ allTickers prices ∧ 0 < diffAt cash stocks prices u
  · rw [if_pos h]
    have hmem : (u, diffAt cash stocks prices u) ∈ buysOf cash stocks prices := by
      rw [buysOf]
      refine List.mem_filter.mpr ⟨diffsOf_mem_of cash stocks prices h.1, ?_⟩
      simp only [decide_eq_true_eq]
      exact h.2
    have hbnod : (keys (buysOf cash stocks prices)).Nodup :=
      buysOf_fst_nodup cash stocks prices hndp
    rw [dgetD, dget_eq_of_mem hbnod hmem]
    rfl
  · rw [if_neg h]
    have hnone : dget (buysOf cash stocks prices) u = none := by
      rw [dget_eq_none_iff]
      intro hmem
      rw [keys, buysOf] at hmem
      rcases List.mem_map.mp hmem with ⟨x, hx, rfl⟩
      have hx1 := List.mem_filter.mp hx
      obtain ⟨hall, hxeq⟩ := mem_diffsOf hx1.1
      have hposx : 0 < x.2 := by
        have := hx1.2
        simp only [decide_eq_true_eq] at this
        exact this
      have hx2 : x.2 = diffAt cash stocks prices x.1 := by
        rw [hxeq]
      exact h ⟨hall, hx2 ▸ hposx⟩
    rw [dgetD, hnone]
    rfl

/-- Invariant of the greedy pass: remaining cash plus the value of the
share dict (summed over any `Nodup` ticker list covering the walked
entries) is unchanged. -/
theorem grantPass_sum (prices : Dict ℚ) (all : List Ticker) (hnd : all.Nodup) :
    ∀ (l : List (Ticker × ℚ)) (rem : ℚ) (s : Dict ℤ), (∀ x ∈ l, x.1 ∈ all) →
      (grantPass prices l rem s).1 +
        ((all.map fun u =>
          ((dgetD (grantPass prices l rem s).2 u 0 : ℤ) : ℚ) * priceOf prices u).sum)
      = rem + (all.map fun u => ((dgetD s u 0 : ℤ) : ℚ) * priceOf prices u).sum := by
  intro l
  induction l with
  | nil => intro rem s _; rfl
  | cons a rest ih =>
    intro rem s hmem
    obtain ⟨t, r⟩ := a
    have htall : t ∈ all := hmem (t, r) (List.mem_cons_self _ _)
    rw [grantPass]
    by_cases hp : priceOf prices t ≤ rem
    · rw [if_pos hp]
      rw [ih (rem - priceOf prices t) (dset s t (dgetD s t 0 + 1))
        (fun x hx => hmem x (List.mem_cons_of_mem _ hx))]
      have hsum := sum_map_update hnd htall
        (fun u => ((dgetD s u 0 : ℤ) : ℚ) * priceOf prices u)
        (fun u => ((dgetD (dset s t (dgetD s t 0 + 1)) u 0 : ℤ) : ℚ) * priceOf prices u)
        (fun u _ hu => by
          have h1 : dgetD (dset s t (dgetD s t 0 + 1)) u 0 = dgetD s u 0 := by
            rw [dgetD, dget_dset, if_neg (fun hh => hu hh.symm)]
            rfl
          simp only [h1])
      rw [hsum]
      have hgt : dgetD (dset s t (dgetD s t 0 + 1)) t 0 = dgetD s t 0 + 1 := by
        rw [dgetD, dget_dset, if_pos rfl]
        rfl
      simp only [hgt]
      push_cast
      ring
    · rw [if_neg hp]
      exact ih rem s (fun x hx => hmem x (List.mem_cons_of_mem _ hx))

theorem mem_rankedOf_fst (prices : Dict ℚ) (total : ℚ) :
    ∀ x ∈ rankedOf prices total, x.1 ∈ allTickers prices := by
  intro x hx
  rw [rankedOf] at hx
  have hx2 := (List.perm_insertionSort _ _).mem_iff.mp hx
  rcases List.mem_map.mp hx2 with ⟨u, hu, rfl⟩
  exact hu

theorem floorShareDict_sum (prices : Dict ℚ) (total : ℚ) :
    ((allTickers prices).map fun u =>
      ((dgetD (floorShareDict prices total) u 0 : ℤ) : ℚ) * priceOf prices u).sum
    = costFloor prices total := by
  rw [costFloor]
  refine congrArg List.sum (List.map_congr_left ?_)
  intro u hu
  have h0 : dgetD (floorShareDict prices total) u 0 = floorSharesOf prices total u := by
    rw [floorShareDict, dgetD, dget_map_self _ _ hu]
    rfl
  rw [h0]

/-- The floored allocation never costs more than the total portfolio
value (each ticker's floor value is at most the target, and `N` targets
sum to the total). -/
theorem costFloor_le_total (prices : Dict ℚ) (total : ℚ) (hne : prices ≠ [])
    (hpos : ∀ x ∈ prices, 0 < x.2) : costFloor prices total ≤ total := by
  have hN : ((allTickers prices).length : ℚ) ≠ 0 := by
    rw [allTickers_length]
    exact Nat.cast_ne_zero.mpr (fun h => hne (List.length_eq_zero.mp h))
  have hle : costFloor prices total ≤
      ((allTickers prices).map fun _ => targetOf prices total).sum := by
    rw [costFloor]
    apply List.sum_le_sum
    intro u hu
    exact floorShares_mul_le prices total u
      (priceOf_pos_of_mem hpos (mem_allTickers.mp hu))
  rw [sum_map_const] at hle
  calc costFloor prices total
      ≤ ((allTickers prices).length : ℚ) * targetOf prices total := hle
    _ = total := by
        rw [targetOf, mul_div_cancel₀ _ hN]

theorem leftover_nonneg (prices : Dict ℚ) (total : ℚ) (hne : prices ≠ [])
    (hpos : ∀ x ∈ prices, 0 < x.2) : 0 ≤ leftoverOf prices total := by
  rw [leftoverOf]
  exact grantPass_remaining_nonneg prices _ _ _
    (sub_nonneg.mpr (costFloor_le_total prices total hne hpos))

/-- The value of the final share counts equals the total minus the
leftover the greedy pass could not spend. -/
theorem newShares_value_sum (prices : Dict ℚ) (total : ℚ)
    (hndp : (keys prices).Nodup) :
    ((allTickers prices).map fun u =>
      ((dgetD (newSharesOf prices total) u 0 : ℤ) : ℚ) * priceOf prices u).sum
    = total - leftoverOf prices total := by
  have hinv := grantPass_sum prices (allTickers prices) (allTickers_nodup hndp)
    (rankedOf prices total) (total - costFloor prices total)
    (floorShareDict prices total) (mem_rankedOf_fst prices total)
  rw [floorShareDict_sum] at hinv
  have h1 : leftoverOf prices total +
      ((allTickers prices).map fun u =>
        ((dgetD (newSharesOf prices total) u 0 : ℤ) : ℚ) * priceOf prices u).sum
      = total := by
    rw [leftoverOf, newSharesOf]
    linarith [hinv]
  linarith [h1]

theorem newShares_cases (prices : Dict ℚ) (total : ℚ) (hnd : (keys prices).Nodup)
    {u : Ticker} (hu : u ∈ allTickers prices) :
    dgetD (newSharesOf prices total) u 0 = floorSharesOf prices total u ∨
    dgetD (newSharesOf prices total) u 0 = floorSharesOf prices total u + 1 := by
  have h0 : dgetD (floorShareDict prices total) u 0 = floorSharesOf prices total u := by
    rw [floorShareDict, dgetD, dget_map_self _ _ hu]
    rfl
  have hg := grantPass_get_le prices (rankedOf prices total)
    (total - costFloor prices total) (floorShareDict prices total) u
    (rankedOf_fst_nodup prices total hnd)
  rw [h0] at hg
  exact hg

theorem newShares_nonneg (prices : Dict ℚ) (total : ℚ)
    (hnd : (keys prices).Nodup) (hpos : ∀ x ∈ prices, 0 < x.2)
    (htot : 0 ≤ total) :
    ∀ u ∈ allTickers prices, (0 : ℤ) ≤ dgetD (newSharesOf prices total) u 0 := by
  intro u hu
  have hp : 0 < priceOf prices u := priceOf_pos_of_mem hpos (mem_allTickers.mp hu)
  have hfl : (0 : ℤ) ≤ floorSharesOf prices total u := by
    rw [floorSharesOf]
    apply Int.floor_nonneg.mpr
    rw [idealOf, targetOf]
    exact div_nonneg (div_nonneg htot (Nat.cast_nonneg _)) hp.le
  rcases newShares_cases prices total hnd hu with h | h <;> rw [h] <;> omega

/-- Splitting the sum of `diff * price` over a list into the buy part
minus the (negated) sell part. -/
theorem diffs_sum_split (prices : Dict ℚ) (L : List (Ticker × ℤ)) :
    ((L.filter fun x => 0 < x.2).map fun x => ((x.2 : ℤ) : ℚ) * priceOf prices x.1).sum
      - (((L.filter fun x => x.2 < 0).map fun x => (x.1, -x.2)).map fun x =>
          ((x.2 : ℤ) : ℚ) * priceOf prices x.1).sum
    = (L.map fun x => ((x.2 : ℤ) : ℚ) * priceOf prices x.1).sum := by
  induction L with
  | nil => simp
  | cons x L ih =>
    obtain ⟨t, q⟩ := x
    rcases lt_trichotomy q 0 with hq | hq | hq
    · have hfp : (List.filter (fun x => decide (0 < x.2)) ((t, q) :: L)) =
          List.filter (fun x => decide (0 < x.2)) L :=
        List.filter_cons_of_neg (by simp only [decide_eq_true_eq]; omega)
      have hfn : (List.filter (fun x => decide (x.2 < 0)) ((t, q) :: L)) =
          (t, q) :: List.filter (fun x => decide (x.2 < 0)) L :=
        List.filter_cons_of_pos (by simp only [decide_eq_true_eq]; exact hq)
      rw [hfp, hfn, List.map_cons, List.map_cons, List.sum_cons, List.map_cons,
        List.sum_cons]
      push_cast
      linarith [ih]
    · have hfp : (List.filter (fun x => decide (0 < x.2)) ((t, q) :: L)) =
          List.filter (fun x => decide (0 < x.2)) L :=
        List.filter_cons_of_neg (by simp only [decide_eq_true_eq]; omega)
      have hfn : (List.filter (fun x => decide (x.2 < 0)) ((t, q) :: L)) =
          List.filter (fun x => decide (x.2 < 0)) L :=
        List.filter_cons_of_neg (by simp only [decide_eq_true_eq]; omega)
      rw [hfp, hfn, List.map_cons, List.sum_cons]
      rw [hq]
      push_cast
      linarith [ih]
    · have hfp : (List.filter (fun x => decide (0 < x.2)) ((t, q) :: L)) =
          (t, q) :: List.filter (fun x => decide (0 < x.2)) L :=
        List.filter_cons_of_pos (by simp only [decide_eq_true_eq]; exact hq)
      have hfn : (List.filter (fun x => decide (x.2 < 0)) ((t, q) :: L)) =
          List.filter (fun x => decide (x.2 < 0)) L :=
        List.filter_cons_of_neg (by simp only [decide_eq_true_eq]; omega)
      rw [hfp, hfn, List.map_cons, List.sum_cons, List.map_cons, List.sum_cons]
      push_cast
      linarith [ih]

theorem dgetD_cons (l : List (Ticker × ℤ)) (t u : Ticker) (q : ℤ) :
    dgetD ((t, q) :: l) u 0 = if t = u then q else dgetD l u 0 := by
  by_cases hu : t = u
  · rw [if_pos hu, dgetD, dget, if_pos hu]
    rfl
  · rw [if_neg hu, dgetD, dget, if_neg hu]
    rfl

theorem dgetD_nil (u : Ticker) : dgetD ([] : Dict ℤ) u 0 = 0 := rfl

/-- Running the sell loop over a list of distinct-ticker, positive,
within-holdings, priced sells succeeds; it adds the total proceeds to cash
and subtracts each sold quantity from its ticker's holding. -/
theorem applySells_spec (prices : Dict ℚ) (l : List (Ticker × ℤ)) :
    ∀ (c : ℚ) (s : Dict ℤ), (l.map Prod.fst).Nodup → (keys s).Nodup →
      (∀ x ∈ l, 0 < x.2 ∧ x.2 ≤ dgetD s x.1 0 ∧ dget prices x.1 ≠ none) →
      ∃ s₁, applySells prices c s l =
          .ok (c + (l.map fun x => ((x.2 : ℤ) : ℚ) * priceOf prices x.1).sum, s₁) ∧
        (keys s₁).Nodup ∧
        ∀ u, dgetD s₁ u 0 = dgetD s u 0 - dgetD l u 0 := by
  induction l with
  | nil =>
    intro c s _ hnds _
    refine ⟨s, by simp [applySells], hnds, fun u => by rw [dgetD_nil]; omega⟩
  | cons a l ih =>
    intro c s hndl hnds hcond
    obtain ⟨t, q⟩ := a
    obtain ⟨hq, hle, hpr⟩ := hcond (t, q) (List.mem_cons_self _ _)
    rw [List.map_cons, List.nodup_cons] at hndl
    obtain ⟨p, hpt⟩ := Option.ne_none_iff_exists'.mp hpr
    have hpOf : priceOf prices t = p := by rw [priceOf, dgetD, hpt]; rfl
    cases hst : dget s t with
    | none =>
      rw [dgetD, hst] at hle
      simp only [Option.getD_none] at hle
      exact absurd hle (not_le.mpr hq)
    | some held =>
      have hheld : dgetD s t 0 = held := by rw [dgetD, hst]; rfl
      rw [hheld] at hle
      set s' := if held - q = 0 then ddel (dset s t (held - q)) t
        else dset s t (held - q) with hsdef
      have hnds' : (keys s').Nodup := by
        rw [hsdef]
        by_cases hz : held - q = 0
        · rw [if_pos hz]
          exact keys_ddel_nodup _ _ (keys_dset_nodup _ _ _ hnds)
        · rw [if_neg hz]
          exact keys_dset_nodup _ _ _ hnds
      have hsget : ∀ u, dgetD s' u 0 = if t = u then held - q else dgetD s u 0 := by
        intro u
        by_cases hu : t = u
        · rw [if_pos hu]
          subst hu
          rw [hsdef]
          by_cases hz : held - q = 0
          · rw [if_pos hz, dgetD, dget_ddel_self _ _ (keys_dset_nodup _ _ _ hnds), hz]
            rfl
          · rw [if_neg hz, dgetD, dget_dset, if_pos rfl]
            rfl
        · rw [if_neg hu, hsdef]
          by_cases hz : held - q = 0
          · rw [if_pos hz, dgetD,
              dget_ddel_ne _ (fun hh => hu hh.symm), dget_dset, if_neg hu]
            rfl
          · rw [if_neg hz, dgetD, dget_dset, if_neg hu]
            rfl
      have hcond' : ∀ x ∈ l, 0 < x.2 ∧ x.2 ≤ dgetD s' x.1 0 ∧ dget prices x.1 ≠ none := by
        intro x hx
        obtain ⟨h1, h2, h3⟩ := hcond x (List.mem_cons_of_mem _ hx)
        refine ⟨h1, ?_, h3⟩
        have hxt : t ≠ x.1 := fun hh => hndl.1 (hh ▸ List.mem_map.mpr ⟨x, hx, rfl⟩)
        rw [hsget x.1, if_neg hxt]
        exact h2
      obtain ⟨s₁, heq, hnds₁, hget₁⟩ := ih (c + q * p) s' hndl.2 hnds' hcond'
      have hlnone : dgetD l t 0 = 0 := by
        rw [dgetD, (dget_eq_none_iff l t).mpr (fun hm => hndl.1 (by rwa [keys] at hm))]
        rfl
      refine ⟨s₁, ?_, hnds₁, fun u => ?_⟩
      · simp only [applySells, if_neg (not_le.mpr hq), hst,
          if_neg (not_lt.mpr hle), hpt]
        rw [← hsdef, heq, List.map_cons, List.sum_cons, hpOf, ← add_assoc]
      · rw [hget₁ u, hsget u, dgetD_cons l t u q]
        by_cases hu : t = u
        · rw [if_pos hu, if_pos hu]
          subst hu
          rw [hlnone, hheld]
          omega
        · rw [if_neg hu, if_neg hu]

/-- Running the buy loop over a list of distinct-ticker, positive, priced
buys whose total cost fits in the available cash succeeds; it subtracts
the total cost from cash and adds each bought quantity to its ticker's
holding. -/
theorem applyBuys_spec (prices : Dict ℚ) (l : List (Ticker × ℤ)) :
    ∀ (c : ℚ) (s : Dict ℤ), (l.map Prod.fst).Nodup → (keys s).Nodup →
      (∀ x ∈ l, 0 < x.2 ∧ dget prices x.1 ≠ none ∧ 0 < priceOf prices x.1) →
      (l.map fun x => ((x.2 : ℤ) : ℚ) * priceOf prices x.1).sum ≤ c →
      ∃ s₁, applyBuys prices c s l =
          .ok (c - (l.map fun x => ((x.2 : ℤ) : ℚ) * priceOf prices x.1).sum, s₁) ∧
        (keys s₁).Nodup ∧
        ∀ u, dgetD s₁ u 0 = dgetD s u 0 + dgetD l u 0 := by
  induction l with
  | nil =>
    intro c s _ hnds _ _
    refine ⟨s, by simp [applyBuys], hnds, fun u => by rw [dgetD_nil]; omega⟩
  | cons a l ih =>
    intro c s hndl hnds hcond hsum
    obtain ⟨t, q⟩ := a
    obtain ⟨hq, hpr, hp0⟩ := hcond (t, q) (List.mem_cons_self _ _)
    rw [List.map_cons, List.nodup_cons] at hndl
    obtain ⟨p, hpt⟩ := Option.ne_none_iff_exists'.mp hpr
    have hpOf : priceOf prices t = p := by rw [priceOf, dgetD, hpt]; rfl
    rw [List.map_cons, List.sum_cons, hpOf] at hsum
    have hrest_nonneg : 0 ≤ (l.map fun x => ((x.2 : ℤ) : ℚ) * priceOf prices x.1).sum := by
      apply List.sum_nonneg
      intro b hb
      rcases List.mem_map.mp hb with ⟨x, hx, rfl⟩
      obtain ⟨hx1, _, hx3⟩ := hcond x (List.mem_cons_of_mem _ hx)
      have hxq : (0 : ℚ) ≤ (x.2 : ℚ) := by exact_mod_cast hx1.le
      positivity
    have hno : ¬ c + eps < q * p := by
      have heps := eps_pos
      intro hcon
      linarith
    set s' := dset s t (dgetD s t 0 + q) with hsdef
    have hsum' : (l.map fun x => ((x.2 : ℤ) : ℚ) * priceOf prices x.1).sum ≤ c - q * p := by
      linarith
    obtain ⟨s₁, heq, hnds₁, hget₁⟩ := ih (c - q * p) s' hndl.2
      (keys_dset_nodup _ _ _ hnds)
      (fun x hx => hcond x (List.mem_cons_of_mem _ hx)) hsum'
    have hlnone : dgetD l t 0 = 0 := by
      rw [dgetD, (dget_eq_none_iff l t).mpr (fun hm => hndl.1 (by rwa [keys] at hm))]
      rfl
    have hsget : ∀ u, dgetD s' u 0 = if t = u then dgetD s t 0 + q else dgetD s u 0 := by
      intro u
      by_cases hu : t = u
      · rw [if_pos hu, ← hu, hsdef, dgetD, dget_dset, if_pos rfl]
        rfl
      · rw [if_neg hu, hsdef, dgetD, dget_dset, if_neg hu]
        rfl
    refine ⟨s₁, ?_, hnds₁, fun u => ?_⟩
    · simp only [applyBuys, hpt, if_neg hno]
      rw [← hsdef, heq, List.map_cons, List.sum_cons, hpOf, sub_sub]
    · rw [hget₁ u, hsget u, dgetD_cons l t u q]
      by_cases hu : t = u
      · rw [if_pos hu, if_pos hu]
        subst hu
        rw [hlnone]
        omega
      · rw [if_neg hu, if_neg hu]

/-- C8: on any valid input, applying the trades `rebalance` produces
(with `apply_trades`) succeeds, and running `rebalance` again on the
resulting portfolio with the same prices yields an exactly empty trade
list — no oscillation. -/
theorem C8_idempotent (cash : ℚ) (stocks : Dict ℤ) (prices : Dict ℚ)
    (hndp : (keys prices).Nodup) (hnds : (keys stocks).Nodup)
    (hne : prices ≠ []) (hpos : ∀ x ∈ prices, 0 < x.2)
    (hcash : 0 ≤ cash) (hstk : ∀ x ∈ stocks, (0 : ℤ) ≤ x.2) :
    ∃ (cash' : ℚ) (stocks' : Dict ℤ),
      rebalance cash stocks prices =
        .ok (sellsOf cash stocks prices, buysOf cash stocks prices) ∧
      apply_trades cash stocks prices (sellsOf cash stocks prices)
        (buysOf cash stocks prices) = .ok (cash', stocks') ∧
      rebalance cash' stocks' prices = .ok ([], []) := by
  have hlen0 : ¬ (allTickers prices).length = 0 := by
    rw [allTickers_length]
    exact fun h => hne (List.length_eq_zero.mp h)
  have htot : 0 ≤ totalValue cash stocks prices :=
    totalValue_nonneg cash stocks prices hpos hcash hstk
  have hns0 : ∀ u ∈ allTickers prices,
      (0 : ℤ) ≤ dgetD (newSharesOf prices (totalValue cash stocks prices)) u 0 :=
    newShares_nonneg prices (totalValue cash stocks prices) hndp hpos htot
  have hdefd : ∀ u, diffAt cash stocks prices u =
      dgetD (newSharesOf prices (totalValue cash stocks prices)) u 0 -
        dgetD stocks u 0 := fun u => rfl
  -- Conditions for the sell loop.
  have hsells_cond : ∀ x ∈ sellsOf cash stocks prices,
      0 < x.2 ∧ x.2 ≤ dgetD stocks x.1 0 ∧ dget prices x.1 ≠ none := by
    intro x hx
    rw [sellsOf] at hx
    rcases List.mem_map.mp hx with ⟨y, hy, rfl⟩
    have hy1 := List.mem_filter.mp hy
    obtain ⟨hall, hyeq⟩ := mem_diffsOf hy1.1
    have hyneg : y.2 < 0 := by
      have h2 := hy1.2
      simp only [decide_eq_true_eq] at h2
      exact h2
    have hy3 : y.2 = dgetD (newSharesOf prices (totalValue cash stocks prices)) y.1 0 -
        dgetD stocks y.1 0 := (congrArg Prod.snd hyeq).trans (hdefd y.1)
    have hns := hns0 y.1 hall
    refine ⟨?_, ?_, ?_⟩
    · show (0 : ℤ) < -y.2
      omega
    · show -y.2 ≤ dgetD stocks y.1 0
      omega
    · show dget prices y.1 ≠ none
      obtain ⟨v, hv⟩ := dget_some_of_mem_keys (mem_allTickers.mp hall)
      intro hcon
      rw [hv] at hcon
      cases hcon
  -- Conditions for the buy loop.
  have hbuys_cond : ∀ x ∈ buysOf cash stocks prices,
      0 < x.2 ∧ dget prices x.1 ≠ none ∧ 0 < priceOf prices x.1 := by
    intro x hx
    rw [buysOf] at hx
    have hx1 := List.mem_filter.mp hx
    obtain ⟨hall, _⟩ := mem_diffsOf hx1.1
    have hxpos : 0 < x.2 := by
      have h2 := hx1.2
      simp only [decide_eq_true_eq] at h2
      exact h2
    refine ⟨hxpos, ?_, priceOf_pos_of_mem hpos (mem_allTickers.mp hall)⟩
    obtain ⟨v, hv⟩ := dget_some_of_mem_keys (mem_allTickers.mp hall)
    intro hcon
    rw [hv] at hcon
    cases hcon
  -- The accounting identity: buys cost minus sell proceeds is the cash
  -- minus the pass leftover.
  have hstar : ((buysOf cash stocks prices).map fun x =>
        ((x.2 : ℤ) : ℚ) * priceOf prices x.1).sum
      - ((sellsOf cash stocks prices).map fun x =>
        ((x.2 : ℤ) : ℚ) * priceOf prices x.1).sum
      = cash - leftoverOf prices (totalValue cash stocks prices) := by
    have h1 : ((buysOf cash stocks prices).map fun x =>
          ((x.2 : ℤ) : ℚ) * priceOf prices x.1).sum
        - ((sellsOf cash stocks prices).map fun x =>
          ((x.2 : ℤ) : ℚ) * priceOf prices x.1).sum
        = ((diffsOf cash stocks prices).map fun x =>
          ((x.2 : ℤ) : ℚ) * priceOf prices x.1).sum := by
      rw [buysOf, sellsOf]
      exact diffs_sum_split prices (diffsOf cash stocks prices)
    have h2 : ((diffsOf cash stocks prices).map fun x =>
          ((x.2 : ℤ) : ℚ) * priceOf prices x.1).sum
        = ((allTickers prices).map fun u =>
          ((diffAt cash stocks prices u : ℤ) : ℚ) * priceOf prices u).sum := by
      rw [diffsOf, List.map_map]
      exact congrArg List.sum (List.map_congr_left fun u _ => rfl)
    have h3 : ((allTickers prices).map fun u =>
          ((diffAt cash stocks prices u : ℤ) : ℚ) * priceOf prices u).sum
        = ((allTickers prices).map fun u =>
            ((dgetD (newSharesOf prices (totalValue cash stocks prices)) u 0 : ℤ) : ℚ) *
              priceOf prices u).sum
          - ((allTickers prices).map fun u =>
            ((dgetD stocks u 0 : ℤ) : ℚ) * priceOf prices u).sum := by
      rw [← sum_map_sub]
      refine congrArg List.sum (List.map_congr_left ?_)
      intro u _
      simp only [diffAt]
      push_cast
      ring
    have h4 := newShares_value_sum prices (totalValue cash stocks prices) hndp
    have h5 : ((allTickers prices).map fun u =>
        ((dgetD stocks u 0 : ℤ) : ℚ) * priceOf prices u).sum
        = totalValue cash stocks prices - cash := by
      have h5a : ((allTickers prices).map fun u =>
          ((dgetD stocks u 0 : ℤ) : ℚ) * priceOf prices u).sum
          = stockValue stocks prices := rfl
      rw [h5a, totalValue]
      ring
    rw [h1, h2, h3, h4, h5]
    ring
  have hleft := leftover_nonneg prices (totalValue cash stocks prices) hne hpos
  -- Run the sell loop.
  obtain ⟨s₁, hSeq, hSnd, hSget⟩ := applySells_spec prices (sellsOf cash stocks prices)
    cash stocks (sellsOf_fst_nodup cash stocks prices hndp) hnds hsells_cond
  -- Run the buy loop.
  have hble : ((buysOf cash stocks prices).map fun x =>
      ((x.2 : ℤ) : ℚ) * priceOf prices x.1).sum ≤
      cash + ((sellsOf cash stocks prices).map fun x =>
        ((x.2 : ℤ) : ℚ) * priceOf prices x.1).sum := by
    linarith [hstar, hleft]
  obtain ⟨s₂, hBeq, hBnd, hBget⟩ := applyBuys_spec prices (buysOf cash stocks prices)
    (cash + ((sellsOf cash stocks prices).map fun x =>
      ((x.2 : ℤ) : ℚ) * priceOf prices x.1).sum) s₁
    (buysOf_fst_nodup cash stocks prices hndp) hSnd hbuys_cond hble
  have h_apply : apply_trades cash stocks prices (sellsOf cash stocks prices)
      (buysOf cash stocks prices) =
      .ok (cash + ((sellsOf cash stocks prices).map fun x =>
            ((x.2 : ℤ) : ℚ) * priceOf prices x.1).sum
          - ((buysOf cash stocks prices).map fun x =>
            ((x.2 : ℤ) : ℚ) * priceOf prices x.1).sum, s₂) := by
    rw [apply_trades, hSeq]
    exact hBeq
  -- The post-trade holdings hold exactly the computed share counts.
  have hs₂ : ∀ u ∈ allTickers prices, dgetD s₂ u 0 =
      dgetD (newSharesOf prices (totalValue cash stocks prices)) u 0 := by
    intro u hu
    rw [hBget u, hSget u, dgetD_sellsOf_eq cash stocks prices hndp u,
      dgetD_buysOf_eq cash stocks prices hndp u]
    have hd := hdefd u
    rcases lt_trichotomy (diffAt cash stocks prices u) 0 with hlt | heq0 | hgt
    · rw [if_pos ⟨hu, hlt⟩, if_neg (fun hcon => absurd hcon.2 (by omega))]
      omega
    · rw [if_neg (fun hcon => absurd hcon.2 (by omega)),
        if_neg (fun hcon => absurd hcon.2 (by omega))]
      omega
    · rw [if_neg (fun hcon => absurd hcon.2 (by omega)), if_pos ⟨hu, hgt⟩]
      omega
  -- Total value is preserved, so the second run recomputes the same
  -- share counts and finds nothing to trade.
  have htot2 : totalValue (cash + ((sellsOf cash stocks prices).map fun x =>
        ((x.2 : ℤ) : ℚ) * priceOf prices x.1).sum
      - ((buysOf cash stocks prices).map fun x =>
        ((x.2 : ℤ) : ℚ) * priceOf prices x.1).sum) s₂ prices
      = totalValue cash stocks prices := by
    rw [totalValue, stockValue]
    have hmap : ((allTickers prices).map fun u =>
        ((dgetD s₂ u 0 : ℤ) : ℚ) * priceOf prices u).sum
        = ((allTickers prices).map fun u =>
          ((dgetD (newSharesOf prices (totalValue cash stocks prices)) u 0 : ℤ) : ℚ) *
            priceOf prices u).sum := by
      refine congrArg List.sum (List.map_congr_left ?_)
      intro u hu
      simp only [hs₂ u hu]
    rw [hmap, newShares_value_sum prices (totalValue cash stocks prices) hndp]
    linarith [hstar]
  have hreb2 : rebalance (cash + ((sellsOf cash stocks prices).map fun x =>
        ((x.2 : ℤ) : ℚ) * priceOf prices x.1).sum
      - ((buysOf cash stocks prices).map fun x =>
        ((x.2 : ℤ) : ℚ) * priceOf prices x.1).sum) s₂ prices = .ok ([], []) := by
    have hdiff0 : ∀ x ∈ diffsOf (cash + ((sellsOf cash stocks prices).map fun x =>
          ((x.2 : ℤ) : ℚ) * priceOf prices x.1).sum
        - ((buysOf cash stocks prices).map fun x =>
          ((x.2 : ℤ) : ℚ) * priceOf prices x.1).sum) s₂ prices, x.2 = 0 := by
      intro x hx
      rw [diffsOf] at hx
      rcases List.mem_map.mp hx with ⟨u, hu, rfl⟩
      show dgetD (newSharesOf prices (totalValue _ s₂ prices)) u 0 - dgetD s₂ u 0 = 0
      rw [htot2, hs₂ u hu]
      omega
    have hsell2 : sellsOf (cash + ((sellsOf cash stocks prices).map fun x =>
          ((x.2 : ℤ) : ℚ) * priceOf prices x.1).sum
        - ((buysOf cash stocks prices).map fun x =>
          ((x.2 : ℤ) : ℚ) * priceOf prices x.1).sum) s₂ prices = [] := by
      rw [sellsOf, List.filter_eq_nil_iff.mpr, List.map_nil]
      intro x hx
      have hx0 := hdiff0 x hx
      simp only [decide_eq_true_eq]
      omega
    have hbuy2 : buysOf (cash + ((sellsOf cash stocks prices).map fun x =>
          ((x.2 : ℤ) : ℚ) * priceOf prices x.1).sum
        - ((buysOf cash stocks prices).map fun x =>
          ((x.2 : ℤ) : ℚ) * priceOf prices x.1).sum) s₂ prices = [] := by
      rw [buysOf]
      refine List.filter_eq_nil_iff.mpr ?_
      intro x hx
      have hx0 := hdiff0 x hx
      simp only [decide_eq_true_eq]
      omega
    rw [rebalance, if_neg hlen0, hsell2, hbuy2]
  exact ⟨_, s₂, by rw [rebalance, if_neg hlen0], h_apply, hreb2⟩

unseal Rat.mul Rat.add Rat.sub Rat.inv in
/-- Witness for C8 at the specification's own scenario. -/
theorem C8_witness :
    ((keys ([("A", 10), ("B", 20)] : Dict ℚ)).Nodup ∧
      (keys ([] : Dict ℤ)).Nodup ∧
      ([("A", 10), ("B", 20)] : Dict ℚ) ≠ [] ∧
      (∀ x ∈ ([("A", 10), ("B", 20)] : Dict ℚ), 0 < x.2) ∧
      (0 : ℚ) ≤ 100 ∧ (∀ x ∈ ([] : Dict ℤ), (0 : ℤ) ≤ x.2)) ∧
    (∃ (cash' : ℚ) (stocks' : Dict ℤ),
      rebalance 100 [] [("A", 10), ("B", 20)] =
        .ok (sellsOf 100 [] [("A", 10), ("B", 20)], buysOf 100 [] [("A", 10), ("B", 20)]) ∧
      apply_trades 100 [] [("A", 10), ("B", 20)] (sellsOf 100 [] [("A", 10), ("B", 20)])
        (buysOf 100 [] [("A", 10), ("B", 20)]) = .ok (cash', stocks') ∧
      rebalance cash' stocks' [("A", 10), ("B", 20)] = .ok ([], [])) :=
  ⟨⟨by decide, by decide, by decide, by decide, by decide, by decide⟩,
    C8_idempotent 100 [] [("A", 10), ("B", 20)] (by decide) (by decide) (by decide)
      (by decide) (by decide) (by decide)⟩

end Rebalance
